import Mathlib

/-!
Verification of the game-record navigation engine of droceRoG (src/src/gogame.c)
against its natural-language specification.

Shallow embedding notes:

* SGF nodes live in an arena (`SGFTree.nodes`); C pointers become arena
  indices, NULL becomes `none`.  Each `SGFNode` mirrors the fields of the
  sgftree node that gogame.c reads: `props`, `parent`, `child`, `next`,
  `prevVar`, `nextVar`, `draw_lvl`, `move_num`.
* The board projection (goboard.c) is not part of src/.  `Board` is modelled
  from the spec, section 6: apply(node) applies all of a node's commands and
  pushes one undo frame; undo() pops one frame and reports false if no frame
  is left.  The accumulated state of the projection is the stack of frames.
* Each C function of gogame.c becomes a Lean function of the same name on
  `GogameState`.  A result of `none` models a crash: a failed assert, a NULL
  pointer dereference, or an out-of-fuel loop.  `while` loops take explicit
  fuel which is consumed only when an iteration actually runs.
* `nApply` / `nUndo` count the calls of the two board primitives, so that
  claims about "number of primitive calls" can be stated.
-/

inductive StoneColor
  | black
  | white
deriving DecidableEq

inductive MarkKind
  | square
  | circ
  | triangle
deriving DecidableEq

/-- Board commands, as issued by apply_sgf_cmds_to_board: a stone placement
(BOARD_BLACK / BOARD_WHITE, with the bMove flag) or a marker placement. -/
inductive BoardCmd
  | placeStone (x y : Int) (color : StoneColor) (isMove : Bool)
  | placeMarker (x y : Int) (mark : MarkKind)
deriving DecidableEq

/-- The SGF property names that gogame.c dispatches on (ENC_SGFPROP cases of
apply_sgf_cmds_to_board plus the comment property "C "); every other
property is `other`. -/
inductive PropName
  | AB
  | AW
  | B
  | W
  | SQ
  | CR
  | TR
  | C
  | other
deriving DecidableEq

/-- One SGF property of a node.  Modelled from the spec: sgftree is not in
src/, and per section 3 each command is tagged with a board coordinate and a
kind; `x`/`y` stand for get_moveX/get_moveY of the property value and
`strval` for its text value (used by the "C " comment property). -/
structure SGFProperty where
  name : PropName
  x : Int
  y : Int
  strval : String
deriving DecidableEq

/-- One SGF node, mirroring the fields of sgftree's SGFNode that gogame.c
reads.  Pointers are arena indices, NULL is `none`. -/
structure SGFNode where
  props : List SGFProperty
  parent : Option Nat
  child : Option Nat
  next : Option Nat
  prevVar : Option Nat
  nextVar : Option Nat
  draw_lvl : Int
  move_num : Int
deriving DecidableEq

/-- The SGF game tree: an arena of nodes plus the index of the root. -/
structure SGFTree where
  nodes : List SGFNode
  root : Nat
deriving DecidableEq

def getNode (t : SGFTree) (i : Nat) : Option SGFNode :=
  t.nodes.get? i

/-- The board commands of one node, in property order: the switch of
apply_sgf_cmds_to_board (gogame.c lines 591-629). -/
def propCmd (p : SGFProperty) : Option BoardCmd :=
  match p.name with
  | PropName.AB => some (BoardCmd.placeStone p.x p.y StoneColor.black false)
  | PropName.AW => some (BoardCmd.placeStone p.x p.y StoneColor.white false)
  | PropName.B => some (BoardCmd.placeStone p.x p.y StoneColor.black true)
  | PropName.W => some (BoardCmd.placeStone p.x p.y StoneColor.white true)
  | PropName.SQ => some (BoardCmd.placeMarker p.x p.y MarkKind.square)
  | PropName.CR => some (BoardCmd.placeMarker p.x p.y MarkKind.circ)
  | PropName.TR => some (BoardCmd.placeMarker p.x p.y MarkKind.triangle)
  | _ => none

def nodeCmds (n : SGFNode) : List BoardCmd :=
  n.props.filterMap propCmd

/-- sgfGetCharProperty(node, "C ", ...): the first "C " property's value. -/
def nodeComment (n : SGFNode) : Option String :=
  (n.props.find? (fun p => p.name = PropName.C)).map SGFProperty.strval

/-- Commands of the node stored at index `i` ([] if the index is invalid;
only used underneath hypotheses that make every lookup succeed). -/
def cmdsAt (t : SGFTree) (i : Nat) : List BoardCmd :=
  ((getNode t i).map nodeCmds).getD []

/-- Board projection.  Modelled from the spec: goboard.c is not in src/; per
section 6 the projection keeps a history stack with one undo frame per
applied node.  `history` lists frames youngest first. -/
structure Board where
  history : List (List BoardCmd)
deriving DecidableEq

def Board.applyFrame (b : Board) (cmds : List BoardCmd) : Board :=
  ⟨cmds :: b.history⟩

/-- Modelled from the spec, section 6: undo() pops one frame, restores the
prior board state, and returns false if no frame is left to pop. -/
def Board.undo (b : Board) : Bool × Board :=
  match b.history with
  | [] => (false, b)
  | _ :: rest => (true, ⟨rest⟩)

/-- The accumulated state of the projection: all applied commands in
root-to-cursor order. -/
def Board.accum (b : Board) : List BoardCmd :=
  b.history.reverse.flatten

/-- The global viewer state of gogame.c: gameTree, curNode, comment_str,
comment_update, bShowFullScreenComment, plus the (spec-modelled) board
projection and two instrumentation counters for the apply/undo primitives. -/
structure GogameState where
  gameTree : Option SGFTree
  curNode : Option Nat
  comment_str : Option String
  comment_update : Bool
  bShowFullScreenComment : Bool
  board : Board
  nApply : Nat
  nUndo : Nat
deriving DecidableEq

/-- apply_sgf_cmds_to_board (gogame.c lines 591-629): asserts the tree is
loaded, reads curNode's properties and issues their board commands; per the
spec's projection contract this pushes one undo frame. -/
def apply_sgf_cmds_to_board (s : GogameState) : Option GogameState :=
  match s.gameTree with
  | none => none
  | some t =>
    match s.curNode with
    | none => none
    | some i =>
      match getNode t i with
      | none => none
      | some n =>
        some { s with board := s.board.applyFrame (nodeCmds n), nApply := s.nApply + 1 }

/-- updateCommentStr (gogame.c lines 497-531): asserts a tree is loaded and
the cursor is non-NULL, reads the cursor's "C " property and refreshes the
comment cache and its dirty flag. -/
def updateCommentStr (s : GogameState) : Option GogameState :=
  match s.gameTree with
  | none => none
  | some t =>
    match s.curNode with
    | none => none
    | some i =>
      match getNode t i with
      | none => none
      | some n =>
        match nodeComment n with
        | none =>
          match s.comment_str with
          | some _ => some { s with comment_str := none, comment_update := true }
          | none => some { s with comment_update := false }
        | some msg => some { s with comment_str := some msg, comment_update := true }

/-- gogame_move_forward_update (gogame.c lines 569-585). -/
def gogame_move_forward_update (bUpdate : Bool) (s : GogameState) : Option GogameState :=
  match s.gameTree with
  | none => some s
  | some t =>
    if s.bShowFullScreenComment then some s
    else
      match s.curNode with
      | none => none
      | some i =>
        match getNode t i with
        | none => none
        | some n =>
          match n.child with
          | none => some s
          | some j =>
            match apply_sgf_cmds_to_board { s with curNode := some j } with
            | none => none
            | some s1 => if bUpdate then updateCommentStr s1 else some s1

def gogame_move_forward (s : GogameState) : Option GogameState :=
  gogame_move_forward_update true s

/-- gogame_move_back_update (gogame.c lines 631-643): board_undo() first;
only on success the cursor moves to its parent. -/
def gogame_move_back_update (bUpdate : Bool) (s : GogameState) : Option GogameState :=
  match s.gameTree with
  | none => some s
  | some t =>
    if s.bShowFullScreenComment then some s
    else
      let u := s.board.undo
      let s1 : GogameState := { s with board := u.2, nUndo := s.nUndo + 1 }
      if u.1 then
        match s1.curNode with
        | none => none
        | some i =>
          match getNode t i with
          | none => none
          | some n =>
            let s2 : GogameState := { s1 with curNode := n.parent }
            if bUpdate then updateCommentStr s2 else some s2
      else
        if bUpdate then updateCommentStr s1 else some s1

def gogame_move_back (s : GogameState) : Option GogameState :=
  gogame_move_back_update true s

/-- The body snippet "if (board_undo()) curNode = curNode->parent;" used by
the lock-step walk of undo_variation (gogame.c lines 662-663). -/
def undo_step_raw (t : SGFTree) (s : GogameState) : Option GogameState :=
  let u := s.board.undo
  let s1 : GogameState := { s with board := u.2, nUndo := s.nUndo + 1 }
  if u.1 then
    match s1.curNode with
    | none => none
    | some i =>
      match getNode t i with
      | none => none
      | some n => some { s1 with curNode := n.parent }
  else some s1

/-- The lock-step ascent loop of undo_variation (gogame.c lines 661-680):
walks both pointers up one parent step per iteration, undoing the board on
the source side and recording the visited target-side nodes (the C code
stages them in a linked list through a reused `next` field; here `acc`
accumulates them, ending youngest-last, which is the replay order). -/
def undoVarWalk (t : SGFTree) :
    Nat → Option Nat → Option Nat → List Nat → GogameState →
    Option (Option Nat × Option Nat × List Nat × GogameState)
  | 0, srcI, tgtI, acc, s =>
    match srcI, tgtI with
    | some si, some ti =>
      if si = ti then some (some si, some ti, acc, s)
      else none
    | _, _ => some (srcI, tgtI, acc, s)
  | f + 1, srcI, tgtI, acc, s =>
    match srcI, tgtI with
    | some si, some ti =>
      if si = ti then some (some si, some ti, acc, s)
      else
        match undo_step_raw t s with
        | none => none
        | some s1 =>
          match getNode t si, getNode t ti with
          | some sn, some tn => undoVarWalk t f sn.parent tn.parent (ti :: acc) s1
          | _, _ => none
    | _, _ => some (srcI, tgtI, acc, s)

/-- The replay loop of undo_variation (gogame.c lines 685-689): for each
recorded node, set the cursor to it and apply its commands. -/
def undoVarReplay (t : SGFTree) : List Nat → GogameState → Option GogameState
  | [], s => some s
  | i :: rest, s =>
    match apply_sgf_cmds_to_board { s with curNode := some i } with
    | none => none
    | some s1 => undoVarReplay t rest s1

/-- undo_variation (gogame.c lines 649-694): lock-step ascent to the common
ancestor, assertion that both walk pointers are still non-NULL, then replay
down to the target. -/
def undo_variation (t : SGFTree) (fuel : Nat) (srcI tgtI : Nat) (s : GogameState) :
    Option GogameState :=
  match undoVarWalk t fuel (some srcI) (some tgtI) [] s with
  | none => none
  | some (srcE, tgtE, path, s1) =>
    match srcE, tgtE with
    | some _, some _ => undoVarReplay t path s1
    | _, _ => none

/-- The "go to beginning of variations" loop shared by gogame_moveVar_down
and gogame_moveVar_up (gogame.c lines 708-710 and 741-743). -/
def varChainHead (t : SGFTree) : Nat → Nat → Option Nat
  | 0, i =>
    match getNode t i with
    | none => none
    | some n =>
      match n.prevVar with
      | none => some i
      | some _ => none
  | f + 1, i =>
    match getNode t i with
    | none => none
    | some n =>
      match n.prevVar with
      | none => some i
      | some p => varChainHead t f p

/-- The scan of gogame_moveVar_down (gogame.c lines 713-719): smallest
draw_lvl strictly above the current one (and below the 20000 sentinel). -/
def scanVarDown (t : SGFTree) (curLvl : Int) :
    Nat → Option Nat → Int → Option Nat → Option (Option Nat)
  | _, none, _, best => some best
  | 0, some _, _, _ => none
  | f + 1, some i, lvl, best =>
    match getNode t i with
    | none => none
    | some n =>
      if curLvl < n.draw_lvl ∧ n.draw_lvl < lvl then
        scanVarDown t curLvl f n.nextVar n.draw_lvl (some i)
      else
        scanVarDown t curLvl f n.nextVar lvl best

/-- The scan of gogame_moveVar_up (gogame.c lines 746-752): largest draw_lvl
strictly below the current one (and above the -20000 sentinel). -/
def scanVarUp (t : SGFTree) (curLvl : Int) :
    Nat → Option Nat → Int → Option Nat → Option (Option Nat)
  | _, none, _, best => some best
  | 0, some _, _, _ => none
  | f + 1, some i, lvl, best =>
    match getNode t i with
    | none => none
    | some n =>
      if n.draw_lvl < curLvl ∧ lvl < n.draw_lvl then
        scanVarUp t curLvl f n.nextVar n.draw_lvl (some i)
      else
        scanVarUp t curLvl f n.nextVar lvl best

/-- gogame_moveVar_down (gogame.c lines 696-727). -/
def gogame_moveVar_down (fuel : Nat) (s : GogameState) : Option GogameState :=
  match s.gameTree with
  | none => some s
  | some t =>
    if s.bShowFullScreenComment then some s
    else
      match s.curNode with
      | none => none
      | some i =>
        match getNode t i with
        | none => none
        | some n =>
          match varChainHead t fuel i with
          | none => none
          | some hd =>
            match scanVarDown t n.draw_lvl fuel (some hd) 20000 none with
            | none => none
            | some none => some s
            | some (some j) =>
              match undo_variation t fuel i j s with
              | none => none
              | some s1 => updateCommentStr s1

/-- gogame_moveVar_up (gogame.c lines 729-760). -/
def gogame_moveVar_up (fuel : Nat) (s : GogameState) : Option GogameState :=
  match s.gameTree with
  | none => some s
  | some t =>
    if s.bShowFullScreenComment then some s
    else
      match s.curNode with
      | none => none
      | some i =>
        match getNode t i with
        | none => none
        | some n =>
          match varChainHead t fuel i with
          | none => none
          | some hd =>
            match scanVarUp t n.draw_lvl fuel (some hd) (-20000) none with
            | none => none
            | some none => some s
            | some (some j) =>
              match undo_variation t fuel i j s with
              | none => none
              | some s1 => updateCommentStr s1

/-- The skip loop of gogame_move_to_nextEvt (gogame.c line 775): keep
stepping forward while the cursor has a child, has no next sibling, and
carries no comment. -/
def nextEvtLoop (t : SGFTree) : Nat → GogameState → Option GogameState
  | 0, s =>
    match s.curNode with
    | none => none
    | some i =>
      match getNode t i with
      | none => none
      | some n =>
        if n.child.isSome ∧ n.next = none ∧ nodeComment n = none then none
        else some s
  | f + 1, s =>
    match s.curNode with
    | none => none
    | some i =>
      match getNode t i with
      | none => none
      | some n =>
        if n.child.isSome ∧ n.next = none ∧ nodeComment n = none then
          match gogame_move_forward_update false s with
          | none => none
          | some s1 => nextEvtLoop t f s1
        else some s

/-- gogame_move_to_nextEvt (gogame.c lines 762-781). -/
def gogame_move_to_nextEvt (fuel : Nat) (s : GogameState) : Option GogameState :=
  match s.gameTree with
  | none => some s
  | some t =>
    if s.bShowFullScreenComment then some s
    else
      match gogame_move_forward_update false s with
      | none => none
      | some s1 =>
        match nextEvtLoop t fuel s1 with
        | none => none
        | some s2 => updateCommentStr s2

/-- The skip loop of gogame_move_to_prevEvt (gogame.c line 796), with the C
operator && short-circuit order preserved: curNode->parent, then
curNode->next, then the dereference of curNode->parent->child->next, then
the comment lookup. -/
def prevEvtLoop (t : SGFTree) : Nat → GogameState → Option GogameState
  | 0, s =>
    match s.curNode with
    | none => none
    | some i =>
      match getNode t i with
      | none => none
      | some n =>
        match n.parent with
        | none => some s
        | some p =>
          if n.next = none then
            match getNode t p with
            | none => none
            | some pn =>
              match pn.child with
              | none => none
              | some c =>
                match getNode t c with
                | none => none
                | some cn =>
                  if cn.next = none ∧ nodeComment n = none then none
                  else some s
          else some s
  | f + 1, s =>
    match s.curNode with
    | none => none
    | some i =>
      match getNode t i with
      | none => none
      | some n =>
        match n.parent with
        | none => some s
        | some p =>
          if n.next = none then
            match getNode t p with
            | none => none
            | some pn =>
              match pn.child with
              | none => none
              | some c =>
                match getNode t c with
                | none => none
                | some cn =>
                  if cn.next = none ∧ nodeComment n = none then
                    match gogame_move_back_update false s with
                    | none => none
                    | some s1 => prevEvtLoop t f s1
                  else some s
          else some s

/-- gogame_move_to_prevEvt (gogame.c lines 783-802). -/
def gogame_move_to_prevEvt (fuel : Nat) (s : GogameState) : Option GogameState :=
  match s.gameTree with
  | none => some s
  | some t =>
    if s.bShowFullScreenComment then some s
    else
      match gogame_move_back_update false s with
      | none => none
      | some s1 =>
        match prevEvtLoop t fuel s1 with
        | none => none
        | some s2 => updateCommentStr s2

/-- The backward loop of gogame_move_to_page (gogame.c lines 820-821). -/
def pageBackLoop (t : SGFTree) (page : Int) : Nat → GogameState → Option GogameState
  | 0, s =>
    match s.curNode with
    | none => none
    | some i =>
      match getNode t i with
      | none => none
      | some n =>
        if n.parent.isSome ∧ page < n.move_num then none
        else some s
  | f + 1, s =>
    match s.curNode with
    | none => none
    | some i =>
      match getNode t i with
      | none => none
      | some n =>
        if n.parent.isSome ∧ page < n.move_num then
          match gogame_move_back_update false s with
          | none => none
          | some s1 => pageBackLoop t page f s1
        else some s

/-- The forward loop of gogame_move_to_page (gogame.c lines 824-825). -/
def pageFwdLoop (t : SGFTree) (page : Int) : Nat → GogameState → Option GogameState
  | 0, s =>
    match s.curNode with
    | none => none
    | some i =>
      match getNode t i with
      | none => none
      | some n =>
        if n.child.isSome ∧ n.move_num < page then none
        else some s
  | f + 1, s =>
    match s.curNode with
    | none => none
    | some i =>
      match getNode t i with
      | none => none
      | some n =>
        if n.child.isSome ∧ n.move_num < page then
          match gogame_move_forward_update false s with
          | none => none
          | some s1 => pageFwdLoop t page f s1
        else some s

/-- gogame_move_to_page (gogame.c lines 804-833); returns the C int result
as a Bool. -/
def gogame_move_to_page (page : Int) (fuel : Nat) (s : GogameState) :
    Option (GogameState × Bool) :=
  match s.gameTree with
  | none => some (s, false)
  | some t =>
    if s.bShowFullScreenComment then some (s, false)
    else
      match s.curNode with
      | none => some (s, false)
      | some i =>
        match getNode t i with
        | none => none
        | some n =>
          if page = n.move_num then some (s, false)
          else
            match (if page < n.move_num then pageBackLoop t page fuel s
                   else pageFwdLoop t page fuel s) with
            | none => none
            | some s1 =>
              match updateCommentStr s1 with
              | none => none
              | some s2 => some (s2, true)

/-- The root-to-cursor path of node `i`, listed cursor first (the order of
the projection's history stack).  Fuel is consumed per parent step; `none`
models a parent chain that does not terminate within the fuel. -/
def pathIdx (t : SGFTree) : Nat → Nat → Option (List Nat)
  | fuel, i =>
    match getNode t i with
    | none => none
    | some n =>
      match n.parent with
      | none => some [i]
      | some p =>
        match fuel with
        | 0 => none
        | f + 1 => (pathIdx t f p).map (fun rest => i :: rest)

/-- Invariant I2 checker at one node: a main child points back to its
parent. -/
def childOK (t : SGFTree) (i : Nat) : Bool :=
  match getNode t i with
  | none => true
  | some n =>
    match n.child with
    | none => true
    | some c =>
      match getNode t c with
      | none => false
      | some cn => decide (cn.parent = some i)

/-- Ply-coherence checker at one node: a parent link is valid and the
node's move number is its parent's plus one (ply_index = distance from the
root, spec section 3). -/
def parentOK (t : SGFTree) (i : Nat) : Bool :=
  match getNode t i with
  | none => true
  | some n =>
    match n.parent with
    | none => true
    | some p =>
      match getNode t p with
      | none => false
      | some pn => decide (n.move_num = pn.move_num + 1)

/-- Well-formed tree: every node satisfies the child/parent coherence checks
and its parent chain reaches a root within nodes-many steps. -/
def TreeWF (t : SGFTree) : Prop :=
  ∀ i, i < t.nodes.length →
    childOK t i = true ∧ parentOK t i = true ∧
    (pathIdx t t.nodes.length i).isSome = true

instance (t : SGFTree) : Decidable (TreeWF t) := by
  unfold TreeWF
  infer_instance

/-- Projection consistency at cursor `i` (Invariant I3): the history stack
is exactly the per-node command frames of the root-to-cursor path. -/
def ProjOK (t : SGFTree) (b : Board) (i : Nat) : Prop :=
  ∃ f p, pathIdx t f i = some p ∧ b.history = p.map (cmdsAt t)

/-- Invariant I3 on a whole state: whenever a tree is loaded the cursor is a
valid node and the projection matches its root-to-cursor path. -/
def NavInv (s : GogameState) : Prop :=
  ∀ t, s.gameTree = some t → ∃ i, s.curNode = some i ∧ ProjOK t s.board i

def mkNode (props : List SGFProperty) (parent child nxt prevVar nextVar : Option Nat)
    (lvl mv : Int) : SGFNode :=
  ⟨props, parent, child, nxt, prevVar, nextVar, lvl, mv⟩

def propB (x y : Int) : SGFProperty := ⟨PropName.B, x, y, ""⟩
def propW (x y : Int) : SGFProperty := ⟨PropName.W, x, y, ""⟩
def propC (v : String) : SGFProperty := ⟨PropName.C, 0, 0, v⟩

def nA0 : SGFNode := mkNode [] none (some 1) none none none 0 0
def nA1 : SGFNode := mkNode [propB 1 1, propC "a"] (some 0) (some 2) none none none 0 1
def nA2 : SGFNode := mkNode [propW 2 2] (some 1) none none none none 0 2

/-- Linear test tree: root 0 with empty frame, 1 = black move carrying a
comment, 2 = white move. -/
def treeA : SGFTree := ⟨[nA0, nA1, nA2], 0⟩

def nB0 : SGFNode := mkNode [] none (some 1) none none none 0 0
def nB1 : SGFNode := mkNode [propB 1 1] (some 0) none (some 2) none (some 2) 0 1
def nB2 : SGFNode := mkNode [propW 2 2] (some 0) none none (some 1) none 1 1

/-- Variation test tree: root 0 with two variation children 1 (draw level 0)
and 2 (draw level 1), linked as siblings and as a variation chain. -/
def treeB : SGFTree := ⟨[nB0, nB1, nB2], 0⟩

def nC0 : SGFNode := mkNode [] none (some 1) none none none 0 0
def nC1 : SGFNode := mkNode [propB 1 1] (some 0) (some 2) none none none 0 1
def nC2 : SGFNode := mkNode [propW 2 2] (some 1) (some 4) (some 3) none (some 3) 0 2
def nC3 : SGFNode := mkNode [propW 3 3] (some 1) none none (some 2) none 1 2
def nC4 : SGFNode := mkNode [propB 4 4] (some 2) none none none none 0 3

/-- Event-skip test tree: root 0 - 1 - 2 - 4 on the main line, with 3 a
second child of 1 (so 2 has a next sibling but only one continuation). -/
def treeC7 : SGFTree := ⟨[nC0, nC1, nC2, nC3, nC4], 0⟩

/-- State at the root of treeA, projection holding the root's frame. -/
def stA0 : GogameState :=
  ⟨some treeA, some 0, none, false, false, ⟨[[]]⟩, 0, 0⟩

/-- State at node 1 of treeB (variation V1), projection consistent. -/
def stB1 : GogameState :=
  ⟨some treeB, some 1, none, false, false, ⟨[cmdsAt treeB 1, []]⟩, 0, 0⟩

/-- State at the root of treeC7, projection holding the root's frame. -/
def stC7 : GogameState :=
  ⟨some treeC7, some 0, none, false, false, ⟨[[]]⟩, 0, 0⟩

/-- State at node 1 of treeA whose cached comment already equals the node's
comment and whose dirty flag is clear. -/
def stC4 : GogameState :=
  ⟨some treeA, some 1, some "a", false, false, ⟨[cmdsAt treeA 1, []]⟩, 0, 0⟩

/-- State with no record loaded. -/
def stNone : GogameState :=
  ⟨none, none, none, false, false, ⟨[]⟩, 0, 0⟩

/-- State at node 1 of treeA with the full-screen-comment flag set. -/
def stFS : GogameState :=
  ⟨some treeA, some 1, some "a", false, true, ⟨[cmdsAt treeA 1, []]⟩, 0, 0⟩

/-- The root state of treeA with an empty projection history (no frame to
pop), used to exercise the failing-undo branch of step-back. -/
def stA0empty : GogameState :=
  ⟨some treeA, some 0, none, false, false, ⟨[]⟩, 0, 0⟩

/-- The state gogame_move_back yields from stA0empty: the undo fails, so
the cursor stays on the root and only the undo counter moves. -/
def stA0emptyBack : GogameState :=
  ⟨some treeA, some 0, none, false, false, ⟨[]⟩, 0, 1⟩

/-- The state gogame_move_forward yields from stA0. -/
def stA1 : GogameState :=
  ⟨some treeA, some 1, some "a", true, false, ⟨[cmdsAt treeA 1, []]⟩, 1, 0⟩

/-- The state gogame_move_to_page 9 yields from stA0: the record is
exhausted at ply 2. -/
def stA9 : GogameState :=
  ⟨some treeA, some 2, none, false, false, ⟨[cmdsAt treeA 2, cmdsAt treeA 1, []]⟩, 2, 0⟩

/-- The state undo_variation (switching V1 to V2) yields from stB1. -/
def stB2 : GogameState :=
  ⟨some treeB, some 2, none, false, false, ⟨[cmdsAt treeB 2, []]⟩, 1, 1⟩

/-- The state gogame_move_to_nextEvt yields from stC7: it stops on node 2. -/
def stC7done : GogameState :=
  ⟨some treeC7, some 2, none, false, false, ⟨[cmdsAt treeC7 2, cmdsAt treeC7 1, []]⟩, 2, 0⟩

theorem updateCommentStr_frame {s s2 : GogameState}
    (h : updateCommentStr s = some s2) :
    s2.gameTree = s.gameTree ∧ s2.curNode = s.curNode ∧ s2.board = s.board ∧
    s2.nApply = s.nApply ∧ s2.nUndo = s.nUndo ∧
    s2.bShowFullScreenComment = s.bShowFullScreenComment := by
  rcases hT : s.gameTree with _ | t
  · simp [updateCommentStr, hT] at h
  rcases hc : s.curNode with _ | i
  · simp [updateCommentStr, hT, hc] at h
  rcases hn : getNode t i with _ | n
  · simp [updateCommentStr, hT, hc, hn] at h
  rcases hcm : nodeComment n with _ | m
  · rcases hcs : s.comment_str with _ | v
    · simp only [updateCommentStr, hT, hc, hn, hcm, hcs] at h
      cases h
      simp [hc]
    · simp only [updateCommentStr, hT, hc, hn, hcm, hcs] at h
      cases h
      simp [hc]
  · simp only [updateCommentStr, hT, hc, hn, hcm] at h
    cases h
    simp [hc]

theorem updateCommentStr_exists {s : GogameState} {t : SGFTree} {i : Nat} {n : SGFNode}
    (hT : s.gameTree = some t) (hc : s.curNode = some i) (hn : getNode t i = some n) :
    ∃ s2, updateCommentStr s = some s2 := by
  simp only [updateCommentStr, hT, hc, hn]
  rcases nodeComment n with _ | m
  · rcases s.comment_str with _ | v <;> simp
  · simp

theorem pathIdx_shape {t : SGFTree} {f i : Nat} {l : List Nat}
    (h : pathIdx t f i = some l) :
    ∃ n, getNode t i = some n ∧
      ((n.parent = none ∧ l = [i]) ∨
       (∃ p g rest, n.parent = some p ∧ f = g + 1 ∧ pathIdx t g p = some rest ∧
         l = i :: rest)) := by
  rw [pathIdx] at h
  rcases hn : getNode t i with _ | n
  · simp [hn] at h
  rcases hp : n.parent with _ | p
  · simp only [hn, hp] at h
    refine ⟨n, rfl, Or.inl ⟨hp, ?_⟩⟩
    injection h with h
    exact h.symm
  · rcases f with _ | g
    · simp [hn, hp] at h
    · simp only [hn, hp] at h
      rcases hrec : pathIdx t g p with _ | rest
      · rw [hrec] at h
        simp at h
      · rw [hrec] at h
        simp at h
        exact ⟨n, rfl, Or.inr ⟨p, g, rest, hp, rfl, hrec, h.symm⟩⟩

theorem pathIdx_cons {t : SGFTree} {f i : Nat} {l : List Nat}
    (h : pathIdx t f i = some l) : ∃ rest, l = i :: rest := by
  rcases pathIdx_shape h with ⟨n, _, ⟨_, rfl⟩ | ⟨p, g, rest, _, _, _, rfl⟩⟩
  · exact ⟨[], rfl⟩
  · exact ⟨rest, rfl⟩

theorem pathIdx_succ {t : SGFTree} {f i : Nat} {l : List Nat}
    (h : pathIdx t f i = some l) : pathIdx t (f + 1) i = some l := by
  induction f generalizing i l with
  | zero =>
    rcases pathIdx_shape h with ⟨n, hn, ⟨hp, rfl⟩ | ⟨p, g, rest, hp, hfg, hrec, rfl⟩⟩
    · rw [pathIdx]
      simp [hn, hp]
    · exact absurd hfg (by omega)
  | succ g ih =>
    rcases pathIdx_shape h with ⟨n, hn, ⟨hp, rfl⟩ | ⟨p, g2, rest, hp, hfg, hrec, rfl⟩⟩
    · rw [pathIdx]
      simp [hn, hp]
    · rw [pathIdx]
      have hg2 : g2 = g := by omega
      subst hg2
      simp [hn, hp, ih hrec]

theorem pathIdx_mono {t : SGFTree} {f g i : Nat} {l : List Nat}
    (hfg : f ≤ g) (h : pathIdx t f i = some l) : pathIdx t g i = some l := by
  induction hfg with
  | refl => exact h
  | step _ ih => exact pathIdx_succ ih

theorem pathIdx_unique {t : SGFTree} {f g i : Nat} {l l2 : List Nat}
    (h1 : pathIdx t f i = some l) (h2 : pathIdx t g i = some l2) : l = l2 := by
  rcases Nat.le_total f g with hle | hle
  · have h3 := pathIdx_mono hle h1
    rw [h3] at h2
    exact Option.some.inj h2
  · have h3 := pathIdx_mono hle h2
    rw [h3] at h1
    exact (Option.some.inj h1).symm

theorem pathIdx_child {t : SGFTree} {f c i : Nat} {l : List Nat} {cn : SGFNode}
    (hcn : getNode t c = some cn) (hp : cn.parent = some i)
    (h : pathIdx t f i = some l) : pathIdx t (f + 1) c = some (c :: l) := by
  rw [pathIdx]
  simp [hcn, hp, h]

theorem pathIdx_drop {t : SGFTree} :
    ∀ (k : Nat) {f i : Nat} {l : List Nat} {x : Nat},
      pathIdx t f i = some l → l[k]? = some x →
      ∃ g, pathIdx t g x = some (l.drop k)
  | 0, f, i, l, x, h, hget => by
      rcases pathIdx_cons h with ⟨rest, rfl⟩
      simp at hget
      subst hget
      exact ⟨f, by simpa using h⟩
  | k + 1, f, i, l, x, h, hget => by
      rcases pathIdx_shape h with ⟨n, hn, ⟨hp, rfl⟩ | ⟨p, g, rest, hp, rfl, hrec, rfl⟩⟩
      · simp at hget
      · simp at hget
        rcases pathIdx_drop k hrec hget with ⟨g2, hg2⟩
        exact ⟨g2, by simpa using hg2⟩

theorem pathIdx_drop_eq {t : SGFTree} {f g i j m : Nat} {ps pt : List Nat} {x : Nat}
    (hps : pathIdx t f i = some ps) (hpt : pathIdx t g j = some pt)
    (hx1 : ps[m]? = some x) (hx2 : pt[m]? = some x) :
    ps.drop m = pt.drop m := by
  rcases pathIdx_drop m hps hx1 with ⟨g1, h1⟩
  rcases pathIdx_drop m hpt hx2 with ⟨g2, h2⟩
  exact pathIdx_unique h1 h2

theorem getNode_lt {t : SGFTree} {i : Nat} {n : SGFNode}
    (h : getNode t i = some n) : i < t.nodes.length := by
  unfold getNode at h
  exact (List.get?_eq_some.mp h).1

theorem childOK_elim {t : SGFTree} {i : Nat} {n : SGFNode} {c : Nat}
    (hwf : childOK t i = true) (hn : getNode t i = some n) (hc : n.child = some c) :
    ∃ cn, getNode t c = some cn ∧ cn.parent = some i := by
  unfold childOK at hwf
  rcases hcn : getNode t c with _ | cn
  · simp only [hn, hc, hcn, Bool.false_eq_true] at hwf
  · simp only [hn, hc, hcn, decide_eq_true_eq] at hwf
    exact ⟨cn, rfl, hwf⟩

theorem parentOK_elim {t : SGFTree} {i : Nat} {n : SGFNode} {p : Nat}
    (hwf : parentOK t i = true) (hn : getNode t i = some n) (hp : n.parent = some p) :
    ∃ pn, getNode t p = some pn ∧ n.move_num = pn.move_num + 1 := by
  unfold parentOK at hwf
  rcases hpn : getNode t p with _ | pn
  · simp only [hn, hp, hpn, Bool.false_eq_true] at hwf
  · simp only [hn, hp, hpn, decide_eq_true_eq] at hwf
    exact ⟨pn, rfl, hwf⟩

theorem navInv_elim {s : GogameState} {t : SGFTree}
    (hInv : NavInv s) (hT : s.gameTree = some t) :
    ∃ i f p, s.curNode = some i ∧ pathIdx t f i = some p ∧
      s.board.history = p.map (cmdsAt t) := by
  rcases hInv t hT with ⟨i, hc, f, p, hp, hh⟩
  exact ⟨i, f, p, hc, hp, hh⟩

theorem navInv_intro {s : GogameState} {t : SGFTree} {i f : Nat} {p : List Nat}
    (hT : s.gameTree = some t) (hc : s.curNode = some i)
    (hp : pathIdx t f i = some p) (hh : s.board.history = p.map (cmdsAt t)) :
    NavInv s := by
  intro t2 ht2
  rw [hT] at ht2
  cases ht2
  exact ⟨i, hc, f, p, hp, hh⟩

theorem cmdsAt_eq {t : SGFTree} {i : Nat} {n : SGFNode}
    (hn : getNode t i = some n) : cmdsAt t i = nodeCmds n := by
  simp [cmdsAt, hn]

theorem forward_preserves {b : Bool} {s s2 : GogameState} {t : SGFTree}
    (hT : s.gameTree = some t)
    (hchild : ∀ i, i < t.nodes.length → childOK t i = true)
    (hInv : NavInv s)
    (h : gogame_move_forward_update b s = some s2) :
    NavInv s2 ∧ s2.gameTree = some t := by
  rcases navInv_elim hInv hT with ⟨i, f, p, hc, hp, hh⟩
  rcases pathIdx_shape hp with ⟨n, hn, _⟩
  unfold gogame_move_forward_update at h
  simp only [hT] at h
  rcases hFS : s.bShowFullScreenComment with _ | _
  · rw [hFS, if_neg Bool.false_ne_true] at h
    simp only [hc, hn] at h
    rcases hch : n.child with _ | j
    · simp only [hch] at h
      cases h
      exact ⟨hInv, hT⟩
    · simp only [hch] at h
      rcases childOK_elim (hchild i (getNode_lt hn)) hn hch with ⟨cn, hcn, hcnp⟩
      simp only [apply_sgf_cmds_to_board, hT, hcn] at h
      have hp2 : pathIdx t (f + 1) j = some (j :: p) := pathIdx_child hcn hcnp hp
      rcases b with _ | _
      · rw [if_neg Bool.false_ne_true] at h
        cases h
        refine ⟨navInv_intro rfl rfl hp2 ?_, rfl⟩
        simp [Board.applyFrame, hh, cmdsAt_eq hcn]
      · rw [if_pos rfl] at h
        have hfr := updateCommentStr_frame h
        refine ⟨navInv_intro (s := s2) (by rw [hfr.1]) (by rw [hfr.2.1]) hp2 ?_, by rw [hfr.1]⟩
        rw [hfr.2.2.1]
        simp [Board.applyFrame, hh, cmdsAt_eq hcn]
  · rw [hFS, if_pos rfl] at h
    cases h
    exact ⟨hInv, hT⟩

theorem apply_sgf_frame {s s2 : GogameState}
    (h : apply_sgf_cmds_to_board s = some s2) :
    s2.gameTree = s.gameTree ∧ s2.curNode = s.curNode ∧
    s2.bShowFullScreenComment = s.bShowFullScreenComment ∧
    s2.comment_str = s.comment_str ∧ s2.comment_update = s.comment_update ∧
    s2.nUndo = s.nUndo := by
  unfold apply_sgf_cmds_to_board at h
  repeat' split at h
  all_goals cases h
  all_goals exact ⟨rfl, rfl, rfl, rfl, rfl, rfl⟩

theorem forward_frame {b : Bool} {s s2 : GogameState}
    (h : gogame_move_forward_update b s = some s2) :
    s2.gameTree = s.gameTree ∧ s2.bShowFullScreenComment = s.bShowFullScreenComment := by
  unfold gogame_move_forward_update at h
  rcases hT : s.gameTree with _ | t
  · simp only [hT] at h
    cases h
    exact ⟨hT, rfl⟩
  simp only [hT] at h
  rcases hFS : s.bShowFullScreenComment with _ | _
  · rw [hFS, if_neg Bool.false_ne_true] at h
    rcases hc : s.curNode with _ | i
    · simp only [hc] at h
      cases h
    simp only [hc] at h
    rcases hn : getNode t i with _ | n
    · simp only [hn] at h
      cases h
    simp only [hn] at h
    rcases hch : n.child with _ | j
    · simp only [hch] at h
      cases h
      exact ⟨hT, hFS⟩
    simp only [hch] at h
    rcases hcn : getNode t j with _ | cn
    · simp only [apply_sgf_cmds_to_board, hT, hcn] at h
      cases h
    simp only [apply_sgf_cmds_to_board, hT, hcn] at h
    rcases b with _ | _
    · rw [if_neg Bool.false_ne_true] at h
      cases h
      exact ⟨rfl, rfl⟩
    · rw [if_pos rfl] at h
      have hu := updateCommentStr_frame h
      exact ⟨hu.1, hu.2.2.2.2.2⟩
  · rw [hFS, if_pos rfl] at h
    cases h
    exact ⟨hT, hFS⟩

theorem back_frame {b : Bool} {s s2 : GogameState}
    (h : gogame_move_back_update b s = some s2) :
    s2.gameTree = s.gameTree ∧ s2.bShowFullScreenComment = s.bShowFullScreenComment := by
  unfold gogame_move_back_update at h
  rcases hT : s.gameTree with _ | t
  · simp only [hT] at h
    cases h
    exact ⟨hT, rfl⟩
  simp only [hT] at h
  rcases hFS : s.bShowFullScreenComment with _ | _
  · rw [hFS, if_neg Bool.false_ne_true] at h
    rcases hu : s.board.undo with ⟨ok, bd2⟩
    simp only [hu] at h
    rcases ok with _ | _
    · rw [if_neg Bool.false_ne_true] at h
      rcases b with _ | _
      · rw [if_neg Bool.false_ne_true] at h
        cases h
        exact ⟨rfl, rfl⟩
      · rw [if_pos rfl] at h
        have hup := updateCommentStr_frame h
        exact ⟨hup.1, hup.2.2.2.2.2⟩
    · rw [if_pos rfl] at h
      rcases hc : s.curNode with _ | i
      · simp only [hc] at h
        cases h
      simp only [hc] at h
      rcases hn : getNode t i with _ | n
      · simp only [hn] at h
        cases h
      simp only [hn] at h
      rcases b with _ | _
      · rw [if_neg Bool.false_ne_true] at h
        cases h
        exact ⟨rfl, rfl⟩
      · rw [if_pos rfl] at h
        have hup := updateCommentStr_frame h
        exact ⟨hup.1, hup.2.2.2.2.2⟩
  · rw [hFS, if_pos rfl] at h
    cases h
    exact ⟨hT, hFS⟩

theorem back_preserves {b : Bool} {s s2 : GogameState} {t : SGFTree}
    (hT : s.gameTree = some t) (hInv : NavInv s)
    (h : gogame_move_back_update b s = some s2) :
    (NavInv s2 ∧ s2.curNode.isSome = true) ∨
    (b = false ∧ s2.curNode = none) := by
  rcases navInv_elim hInv hT with ⟨i, f, p, hc, hp, hh⟩
  rcases pathIdx_shape hp with ⟨n, hn, hcase⟩
  unfold gogame_move_back_update at h
  simp only [hT] at h
  rcases hFS : s.bShowFullScreenComment with _ | _
  · rw [hFS, if_neg Bool.false_ne_true] at h
    rcases hcase with ⟨hpar, rfl⟩ | ⟨q, g, rest, hpar, hfg, hrec, rfl⟩
    · have hu : s.board.undo = (true, ⟨[]⟩) := by
        unfold Board.undo
        rw [hh]
        rfl
      simp only [hu] at h
      simp only [if_true] at h
      simp only [hc, hn, hpar] at h
      rcases b with _ | _
      · rw [if_neg Bool.false_ne_true] at h
        cases h
        exact Or.inr ⟨rfl, rfl⟩
      · rw [if_pos rfl] at h
        exact absurd h (by simp [updateCommentStr])
    · have hu : s.board.undo = (true, ⟨rest.map (cmdsAt t)⟩) := by
        unfold Board.undo
        rw [hh]
        rfl
      simp only [hu] at h
      simp only [if_true] at h
      simp only [hc, hn, hpar] at h
      rcases b with _ | _
      · rw [if_neg Bool.false_ne_true] at h
        cases h
        exact Or.inl ⟨navInv_intro rfl rfl hrec rfl, rfl⟩
      · rw [if_pos rfl] at h
        have hfr := updateCommentStr_frame h
        refine Or.inl ⟨navInv_intro (s := s2) (by rw [hfr.1]) (by rw [hfr.2.1]) hrec ?_, ?_⟩
        · rw [hfr.2.2.1]
        · rw [hfr.2.1]
          rfl
  · rw [hFS, if_pos rfl] at h
    cases h
    rcases hInv t hT with ⟨i2, hc2, hP⟩
    exact Or.inl ⟨hInv, by rw [hc2]; rfl⟩

theorem pageBackLoop_none_cursor {t : SGFTree} {page : Int} {fuel : Nat} {s : GogameState}
    (hc : s.curNode = none) : pageBackLoop t page fuel s = none := by
  cases fuel <;> (rw [pageBackLoop]; simp only [hc])

theorem prevEvtLoop_none_cursor {t : SGFTree} {fuel : Nat} {s : GogameState}
    (hc : s.curNode = none) : prevEvtLoop t fuel s = none := by
  cases fuel <;> (rw [prevEvtLoop]; simp only [hc])

theorem pageBackLoop_preserves {t : SGFTree} {page : Int} (fuel : Nat) :
    ∀ {s s2 : GogameState}, s.gameTree = some t → NavInv s →
      pageBackLoop t page fuel s = some s2 → NavInv s2 ∧ s2.gameTree = some t := by
  induction fuel with
  | zero =>
    intro s s2 hT hInv h
    rcases navInv_elim hInv hT with ⟨i, f, p, hc, hp, hh⟩
    rcases pathIdx_shape hp with ⟨n, hn, _⟩
    rw [pageBackLoop] at h
    simp only [hc, hn] at h
    split at h
    · cases h
    · cases h
      exact ⟨hInv, hT⟩
  | succ f2 ih =>
    intro s s2 hT hInv h
    rcases navInv_elim hInv hT with ⟨i, f, p, hc, hp, hh⟩
    rcases pathIdx_shape hp with ⟨n, hn, _⟩
    rw [pageBackLoop] at h
    simp only [hc, hn] at h
    split at h
    · rcases hb : gogame_move_back_update false s with _ | s1
      · rw [hb] at h
        cases h
      simp only [hb] at h
      have hbf := back_frame hb
      rcases back_preserves hT hInv hb with ⟨hInv1, _⟩ | ⟨_, hcn1⟩
      · exact ih (hbf.1.trans hT) hInv1 h
      · rw [pageBackLoop_none_cursor hcn1] at h
        cases h
    · cases h
      exact ⟨hInv, hT⟩

theorem pageFwdLoop_preserves {t : SGFTree} {page : Int}
    (hchild : ∀ i, i < t.nodes.length → childOK t i = true) (fuel : Nat) :
    ∀ {s s2 : GogameState}, s.gameTree = some t → NavInv s →
      pageFwdLoop t page fuel s = some s2 → NavInv s2 ∧ s2.gameTree = some t := by
  induction fuel with
  | zero =>
    intro s s2 hT hInv h
    rcases navInv_elim hInv hT with ⟨i, f, p, hc, hp, hh⟩
    rcases pathIdx_shape hp with ⟨n, hn, _⟩
    rw [pageFwdLoop] at h
    simp only [hc, hn] at h
    split at h
    · cases h
    · cases h
      exact ⟨hInv, hT⟩
  | succ f2 ih =>
    intro s s2 hT hInv h
    rcases navInv_elim hInv hT with ⟨i, f, p, hc, hp, hh⟩
    rcases pathIdx_shape hp with ⟨n, hn, _⟩
    rw [pageFwdLoop] at h
    simp only [hc, hn] at h
    split at h
    · rcases hb : gogame_move_forward_update false s with _ | s1
      · rw [hb] at h
        cases h
      simp only [hb] at h
      have hbf := forward_frame hb
      have hfp := forward_preserves hT hchild hInv hb
      exact ih (hbf.1.trans hT) hfp.1 h
    · cases h
      exact ⟨hInv, hT⟩

theorem nextEvtLoop_preserves {t : SGFTree}
    (hchild : ∀ i, i < t.nodes.length → childOK t i = true) (fuel : Nat) :
    ∀ {s s2 : GogameState}, s.gameTree = some t → NavInv s →
      nextEvtLoop t fuel s = some s2 → NavInv s2 ∧ s2.gameTree = some t := by
  induction fuel with
  | zero =>
    intro s s2 hT hInv h
    rcases navInv_elim hInv hT with ⟨i, f, p, hc, hp, hh⟩
    rcases pathIdx_shape hp with ⟨n, hn, _⟩
    rw [nextEvtLoop] at h
    simp only [hc, hn] at h
    split at h
    · cases h
    · cases h
      exact ⟨hInv, hT⟩
  | succ f2 ih =>
    intro s s2 hT hInv h
    rcases navInv_elim hInv hT with ⟨i, f, p, hc, hp, hh⟩
    rcases pathIdx_shape hp with ⟨n, hn, _⟩
    rw [nextEvtLoop] at h
    simp only [hc, hn] at h
    split at h
    · rcases hb : gogame_move_forward_update false s with _ | s1
      · rw [hb] at h
        cases h
      simp only [hb] at h
      have hbf := forward_frame hb
      have hfp := forward_preserves hT hchild hInv hb
      exact ih (hbf.1.trans hT) hfp.1 h
    · cases h
      exact ⟨hInv, hT⟩

theorem prevEvtLoop_preserves {t : SGFTree} (fuel : Nat) :
    ∀ {s s2 : GogameState}, s.gameTree = some t → NavInv s →
      prevEvtLoop t fuel s = some s2 → NavInv s2 ∧ s2.gameTree = some t := by
  induction fuel with
  | zero =>
    intro s s2 hT hInv h
    rcases navInv_elim hInv hT with ⟨i, f, p, hc, hp, hh⟩
    rcases pathIdx_shape hp with ⟨n, hn, _⟩
    rw [prevEvtLoop] at h
    simp only [hc, hn] at h
    rcases hpar : n.parent with _ | q
    · simp only [hpar] at h
      cases h
      exact ⟨hInv, hT⟩
    simp only [hpar] at h
    split at h
    · rcases hpn : getNode t q with _ | pn
      · simp only [hpn] at h
        cases h
      simp only [hpn] at h
      rcases hpc : pn.child with _ | c
      · simp only [hpc] at h
        cases h
      simp only [hpc] at h
      rcases hcn : getNode t c with _ | cn
      · simp only [hcn] at h
        cases h
      simp only [hcn] at h
      split at h
      · cases h
      · cases h
        exact ⟨hInv, hT⟩
    · cases h
      exact ⟨hInv, hT⟩
  | succ f2 ih =>
    intro s s2 hT hInv h
    rcases navInv_elim hInv hT with ⟨i, f, p, hc, hp, hh⟩
    rcases pathIdx_shape hp with ⟨n, hn, _⟩
    rw [prevEvtLoop] at h
    simp only [hc, hn] at h
    rcases hpar : n.parent with _ | q
    · simp only [hpar] at h
      cases h
      exact ⟨hInv, hT⟩
    simp only [hpar] at h
    split at h
    · rcases hpn : getNode t q with _ | pn
      · simp only [hpn] at h
        cases h
      simp only [hpn] at h
      rcases hpc : pn.child with _ | c
      · simp only [hpc] at h
        cases h
      simp only [hpc] at h
      rcases hcn : getNode t c with _ | cn
      · simp only [hcn] at h
        cases h
      simp only [hcn] at h
      split at h
      · rcases hb : gogame_move_back_update false s with _ | s1
        · rw [hb] at h
          cases h
        simp only [hb] at h
        have hbf := back_frame hb
        rcases back_preserves hT hInv hb with ⟨hInv1, _⟩ | ⟨_, hcn1⟩
        · exact ih (hbf.1.trans hT) hInv1 h
        · rw [prevEvtLoop_none_cursor hcn1] at h
          cases h
      · cases h
        exact ⟨hInv, hT⟩
    · cases h
      exact ⟨hInv, hT⟩

theorem undo_step_spec {t : SGFTree} {s : GogameState} {i : Nat} {n : SGFNode}
    {frame : List BoardCmd} {rest : List (List BoardCmd)}
    (hc : s.curNode = some i) (hn : getNode t i = some n)
    (hh : s.board.history = frame :: rest) :
    undo_step_raw t s =
      some { s with curNode := n.parent, board := ⟨rest⟩, nUndo := s.nUndo + 1 } := by
  have hu : s.board.undo = (true, ⟨rest⟩) := by
    unfold Board.undo
    rw [hh]
  unfold undo_step_raw
  simp only [hu, if_true, hc, hn]

theorem undoVarWalk_src_none {t : SGFTree} {fuel : Nat} {tgtI : Option Nat}
    {acc : List Nat} {s : GogameState} :
    undoVarWalk t fuel none tgtI acc s = some (none, tgtI, acc, s) := by
  cases fuel <;> rcases tgtI with _ | ti <;> simp [undoVarWalk]

theorem undoVarWalk_tgt_none {t : SGFTree} {fuel : Nat} {srcI : Option Nat}
    {acc : List Nat} {s : GogameState} :
    undoVarWalk t fuel srcI none acc s = some (srcI, none, acc, s) := by
  cases fuel <;> rcases srcI with _ | si <;> simp [undoVarWalk]

theorem undoVarWalk_spec {t : SGFTree} :
    ∀ (m : Nat) {src tgt : Nat} {ps pt : List Nat} {f g : Nat}
      (fuel : Nat) (acc : List Nat) {s : GogameState},
      pathIdx t f src = some ps → pathIdx t g tgt = some pt →
      s.curNode = some src → s.board.history = ps.map (cmdsAt t) →
      (∀ k, k < m → ps[k]? ≠ pt[k]?) →
      ps[m]? = pt[m]? → (ps[m]?).isSome = true →
      m ≤ fuel →
      ∃ s1, undoVarWalk t fuel (some src) (some tgt) acc s =
          some (ps[m]?, pt[m]?, (pt.take m).reverse ++ acc, s1) ∧
        s1.curNode = ps[m]? ∧
        s1.board.history = (ps.drop m).map (cmdsAt t) ∧
        s1.nUndo = s.nUndo + m ∧ s1.nApply = s.nApply ∧
        s1.gameTree = s.gameTree ∧
        s1.bShowFullScreenComment = s.bShowFullScreenComment := by
  intro m
  induction m with
  | zero =>
    intro src tgt ps pt f g fuel acc s hps hpt hc hh _ hmeet hsome _
    rcases pathIdx_cons hps with ⟨ps2, rfl⟩
    rcases pathIdx_cons hpt with ⟨pt2, rfl⟩
    simp only [List.getElem?_cons_zero] at hmeet
    have hst : src = tgt := Option.some.inj hmeet
    subst hst
    refine ⟨s, ?_, ?_, ?_, by omega, rfl, rfl, rfl⟩
    · cases fuel <;>
        (rw [undoVarWalk]; simp only [eq_self_iff_true, if_true, List.getElem?_cons_zero,
          List.take_zero, List.reverse_nil, List.nil_append])
    · simp only [List.getElem?_cons_zero, hc]
    · simp only [List.drop_zero, hh]
  | succ m2 ih =>
    intro src tgt ps pt f g fuel acc s hps hpt hc hh hne hmeet hsome hfuel
    rcases pathIdx_shape hps with ⟨n, hn, hcs⟩
    rcases pathIdx_shape hpt with ⟨tn, htn, hct⟩
    rcases hcs with ⟨hpar, rfl⟩ | ⟨q, f2, rest, hpar, hf2, hrec, rfl⟩
    · simp only [List.getElem?_cons_succ, List.getElem?_nil, Option.isSome_none,
        Bool.false_eq_true] at hsome
    rcases hct with ⟨htpar, rfl⟩ | ⟨q2, g2, rest2, htpar, hg2, hrec2, rfl⟩
    · rw [hmeet] at hsome
      simp only [List.getElem?_cons_succ, List.getElem?_nil, Option.isSome_none,
        Bool.false_eq_true] at hsome
    have hne0 : src ≠ tgt := by
      have h0 := hne 0 (Nat.succ_pos m2)
      simp only [List.getElem?_cons_zero] at h0
      intro he
      exact h0 (by rw [he])
    rcases fuel with _ | fl
    · exact absurd hfuel (by omega)
    rw [undoVarWalk]
    rw [if_neg hne0]
    have hh2 : s.board.history = cmdsAt t src :: rest.map (cmdsAt t) := by
      simpa using hh
    rw [undo_step_spec hc hn hh2]
    simp only [hn, htn, hpar, htpar]
    have hne2 : ∀ k, k < m2 → rest[k]? ≠ rest2[k]? := by
      intro k hk
      have h3 := hne (k + 1) (by omega)
      simpa using h3
    have hmeet2 : rest[m2]? = rest2[m2]? := by simpa using hmeet
    have hsome2 : (rest[m2]?).isSome = true := by simpa using hsome
    rcases @ih q q2 rest rest2 f2 g2 fl (tgt :: acc)
        { s with curNode := some q, board := ⟨rest.map (cmdsAt t)⟩, nUndo := s.nUndo + 1 }
        hrec hrec2 rfl rfl hne2 hmeet2 hsome2 (by omega) with
      ⟨s1, hw, hcur, hhist, hnu, hna, hgt, hfs⟩
    have hnu2 : s1.nUndo = s.nUndo + 1 + m2 := hnu
    have hna2 : s1.nApply = s.nApply := hna
    have hgt2 : s1.gameTree = s.gameTree := hgt
    have hfs2 : s1.bShowFullScreenComment = s.bShowFullScreenComment := hfs
    refine ⟨s1, ?_, ?_, ?_, by omega, hna2, hgt2, hfs2⟩
    · rw [hw]
      simp [List.take_succ_cons, List.reverse_cons, List.append_assoc]
    · simpa using hcur
    · simpa using hhist

theorem undoVarWalk_fuel_out {t : SGFTree} :
    ∀ (fuel : Nat) {m src tgt : Nat} {ps pt : List Nat} {f g : Nat}
      (acc : List Nat) {s : GogameState},
      pathIdx t f src = some ps → pathIdx t g tgt = some pt →
      s.curNode = some src → s.board.history = ps.map (cmdsAt t) →
      (∀ k, k < m → ps[k]? ≠ pt[k]?) →
      (ps[m]?).isSome = true → (pt[m]?).isSome = true →
      fuel < m →
      undoVarWalk t fuel (some src) (some tgt) acc s = none := by
  intro fuel
  induction fuel with
  | zero =>
    intro m src tgt ps pt f g acc s hps hpt hc hh hne hsome hsome2 hfuel
    have hne0 : src ≠ tgt := by
      rcases pathIdx_cons hps with ⟨ps2, rfl⟩
      rcases pathIdx_cons hpt with ⟨pt2, rfl⟩
      have h0 := hne 0 hfuel
      simp only [List.getElem?_cons_zero] at h0
      intro he
      exact h0 (by rw [he])
    rw [undoVarWalk]
    rw [if_neg hne0]
  | succ fl ih =>
    intro m src tgt ps pt f g acc s hps hpt hc hh hne hsome hsome2 hfuel
    rcases pathIdx_shape hps with ⟨n, hn, hcs⟩
    rcases pathIdx_shape hpt with ⟨tn, htn, hct⟩
    rcases hcs with ⟨hpar, rfl⟩ | ⟨q, f2, rest, hpar, hf2, hrec, rfl⟩
    · rcases m with _ | m2
      · exact absurd hfuel (by omega)
      simp only [List.getElem?_cons_succ, List.getElem?_nil, Option.isSome_none,
        Bool.false_eq_true] at hsome
    rcases hct with ⟨htpar, rfl⟩ | ⟨q2, g2, rest2, htpar, hg2, hrec2, rfl⟩
    · rcases m with _ | m2
      · exact absurd hfuel (by omega)
      simp only [List.getElem?_cons_succ, List.getElem?_nil, Option.isSome_none,
        Bool.false_eq_true] at hsome2
    rcases m with _ | m2
    · exact absurd hfuel (by omega)
    have hne0 : src ≠ tgt := by
      have h0 := hne 0 (by omega)
      simp only [List.getElem?_cons_zero] at h0
      intro he
      exact h0 (by rw [he])
    rw [undoVarWalk]
    rw [if_neg hne0]
    have hh2 : s.board.history = cmdsAt t src :: rest.map (cmdsAt t) := by
      simpa using hh
    rw [undo_step_spec hc hn hh2]
    simp only [hn, htn, hpar, htpar]
    have hne2 : ∀ k, k < m2 → rest[k]? ≠ rest2[k]? := by
      intro k hk
      have h3 := hne (k + 1) (by omega)
      simpa using h3
    exact @ih m2 q q2 rest rest2 f2 g2 (tgt :: acc)
      { s with curNode := some q, board := ⟨rest.map (cmdsAt t)⟩, nUndo := s.nUndo + 1 }
      hrec hrec2 rfl rfl hne2 (by simpa using hsome) (by simpa using hsome2) (by omega)

theorem undoVarWalk_nomeet {t : SGFTree} :
    ∀ (fuel : Nat) {src tgt : Nat} {ps pt : List Nat} {f g : Nat}
      (acc : List Nat) {s : GogameState},
      pathIdx t f src = some ps → pathIdx t g tgt = some pt →
      s.curNode = some src → s.board.history = ps.map (cmdsAt t) →
      (∀ k : Nat, ps[k]? = pt[k]? → (ps[k]?).isSome = true → False) →
      undoVarWalk t fuel (some src) (some tgt) acc s = none ∨
      ∃ srcE tgtE path s1, undoVarWalk t fuel (some src) (some tgt) acc s =
          some (srcE, tgtE, path, s1) ∧ (srcE = none ∨ tgtE = none) := by
  intro fuel
  induction fuel with
  | zero =>
    intro src tgt ps pt f g acc s hps hpt hc hh hnm
    have hne0 : src ≠ tgt := by
      rcases pathIdx_cons hps with ⟨ps2, rfl⟩
      rcases pathIdx_cons hpt with ⟨pt2, rfl⟩
      intro he
      exact hnm 0 (by rw [he]; simp) (by simp)
    rw [undoVarWalk]
    rw [if_neg hne0]
    exact Or.inl rfl
  | succ fl ih =>
    intro src tgt ps pt f g acc s hps hpt hc hh hnm
    rcases pathIdx_shape hps with ⟨n, hn, hcs⟩
    rcases pathIdx_shape hpt with ⟨tn, htn, hct⟩
    have hne0 : src ≠ tgt := by
      rcases pathIdx_cons hps with ⟨ps2, he1⟩
      rcases pathIdx_cons hpt with ⟨pt2, he2⟩
      intro he
      exact hnm 0 (by rw [he1, he2, he]; simp) (by rw [he1]; simp)
    rcases hcs with ⟨hpar, rfl⟩ | ⟨q, f2, rest, hpar, hf2, hrec, rfl⟩
    · -- source path is exhausted after this step: the walk exits with a
      -- NULL source pointer and the caller's assert fires
      rw [undoVarWalk]
      rw [if_neg hne0]
      have hh2 : s.board.history = cmdsAt t src :: List.map (cmdsAt t) [] := by
        simpa using hh
      rw [undo_step_spec hc hn hh2]
      simp only [hn, htn, hpar]
      rw [undoVarWalk_src_none]
      exact Or.inr ⟨none, tn.parent, tgt :: acc, _, rfl, Or.inl rfl⟩
    rcases hct with ⟨htpar, rfl⟩ | ⟨q2, g2, rest2, htpar, hg2, hrec2, rfl⟩
    · rw [undoVarWalk]
      rw [if_neg hne0]
      have hh2 : s.board.history = cmdsAt t src :: rest.map (cmdsAt t) := by
        simpa using hh
      rw [undo_step_spec hc hn hh2]
      simp only [hn, htn, hpar, htpar]
      rw [undoVarWalk_tgt_none]
      exact Or.inr ⟨some q, none, tgt :: acc, _, rfl, Or.inr rfl⟩
    rw [undoVarWalk]
    rw [if_neg hne0]
    have hh2 : s.board.history = cmdsAt t src :: rest.map (cmdsAt t) := by
      simpa using hh
    rw [undo_step_spec hc hn hh2]
    simp only [hn, htn, hpar, htpar]
    have hnm2 : ∀ k : Nat, rest[k]? = rest2[k]? → (rest[k]?).isSome = true → False := by
      intro k h1 h2
      exact hnm (k + 1) (by simpa using h1) (by simpa using h2)
    exact @ih q q2 rest rest2 f2 g2 (tgt :: acc)
      { s with curNode := some q, board := ⟨rest.map (cmdsAt t)⟩, nUndo := s.nUndo + 1 }
      hrec hrec2 rfl rfl hnm2

theorem pathIdx_mem_lookup {t : SGFTree} {f i : Nat} {p : List Nat}
    (h : pathIdx t f i = some p) :
    ∀ j, j ∈ p → (getNode t j).isSome = true := by
  intro j hj
  rcases List.mem_iff_getElem?.mp hj with ⟨k, hk⟩
  rcases pathIdx_drop k h hk with ⟨g, hg⟩
  rcases pathIdx_shape hg with ⟨n, hn, _⟩
  rw [hn]
  rfl

theorem undoVarReplay_spec {t : SGFTree} :
    ∀ (l : List Nat) {s : GogameState},
      s.gameTree = some t →
      (∀ j, j ∈ l → (getNode t j).isSome = true) →
      ∃ s2, undoVarReplay t l s = some s2 ∧
        s2.board.history = (l.reverse).map (cmdsAt t) ++ s.board.history ∧
        s2.nApply = s.nApply + l.length ∧ s2.nUndo = s.nUndo ∧
        s2.gameTree = some t ∧
        s2.bShowFullScreenComment = s.bShowFullScreenComment ∧
        s2.comment_str = s.comment_str ∧ s2.comment_update = s.comment_update ∧
        s2.curNode = l.foldl (fun _ j => some j) s.curNode := by
  intro l
  induction l with
  | nil =>
    intro s hT hmem
    exact ⟨s, rfl, by simp, by simp, rfl, hT, rfl, rfl, rfl, rfl⟩
  | cons j rest ih =>
    intro s hT hmem
    have hjl : (getNode t j).isSome = true := hmem j (by simp)
    rcases Option.isSome_iff_exists.mp hjl with ⟨nj, hnj⟩
    rw [undoVarReplay]
    have ha : apply_sgf_cmds_to_board { s with curNode := some j } =
        some { s with curNode := some j, board := s.board.applyFrame (nodeCmds nj), nApply := s.nApply + 1 } := by
      unfold apply_sgf_cmds_to_board
      simp only [hT, hnj]
    simp only [ha]
    rcases @ih { s with curNode := some j, board := s.board.applyFrame (nodeCmds nj), nApply := s.nApply + 1 }
        hT (fun j2 hj2 => hmem j2 (by simp [hj2])) with
      ⟨s2, hr, hh, hna, hnu, hgt, hfs, hcs, hcu, hcur⟩
    refine ⟨s2, hr, ?_, ?_, hnu, hgt, hfs, hcs, hcu, ?_⟩
    · rw [hh]
      simp [Board.applyFrame, cmdsAt_eq hnj, List.append_assoc]
    · have hna2 : s2.nApply = s.nApply + 1 + rest.length := hna
      simp [List.length_cons]
      omega
    · simpa using hcur

theorem undo_variation_spec {t : SGFTree} {src tgt : Nat} {ps pt : List Nat}
    {f g m fuel : Nat} {s : GogameState}
    (hT : s.gameTree = some t)
    (hps : pathIdx t f src = some ps) (hpt : pathIdx t g tgt = some pt)
    (hc : s.curNode = some src) (hh : s.board.history = ps.map (cmdsAt t))
    (hne : ∀ k, k < m → ps[k]? ≠ pt[k]?)
    (hmeet : ps[m]? = pt[m]?) (hsome : (ps[m]?).isSome = true)
    (hfuel : m ≤ fuel) :
    ∃ s2, undo_variation t fuel src tgt s = some s2 ∧
      s2.curNode = some tgt ∧
      s2.board.history = pt.map (cmdsAt t) ∧
      s2.nUndo = s.nUndo + m ∧ s2.nApply = s.nApply + m ∧
      s2.gameTree = some t ∧
      s2.bShowFullScreenComment = s.bShowFullScreenComment := by
  rcases undoVarWalk_spec m fuel [] hps hpt hc hh hne hmeet hsome hfuel with
    ⟨s1, hw, hcur, hhist, hnu, hna, hgt, hfs⟩
  rcases Option.isSome_iff_exists.mp hsome with ⟨x, hx⟩
  have hx2 : pt[m]? = some x := hmeet.symm.trans hx
  have hmlt : m < pt.length := by
    rcases List.getElem?_eq_some.mp hx2 with ⟨hlt, _⟩
    exact hlt
  have hdropeq : ps.drop m = pt.drop m := pathIdx_drop_eq hps hpt hx hx2
  unfold undo_variation
  rw [hw, hx, hx2]
  have hmem : ∀ j, j ∈ (pt.take m).reverse → (getNode t j).isSome = true := by
    intro j hj
    rw [List.mem_reverse] at hj
    exact pathIdx_mem_lookup hpt j (List.mem_of_mem_take hj)
  rcases undoVarReplay_spec ((pt.take m).reverse ++ []) (hgt.trans hT)
      (by simpa using hmem) with ⟨s2, hr, hh2, hna2, hnu2, hgt2, hfs2, _, _, hcur2⟩
  refine ⟨s2, hr, ?_, ?_, by omega, ?_, hgt2, hfs2.trans hfs⟩
  · rw [hcur2]
    rcases Nat.eq_zero_or_pos m with hm | hm
    · subst hm
      rcases pathIdx_cons hps with ⟨ps2, hps2⟩
      rcases pathIdx_cons hpt with ⟨pt2, hpt2⟩
      have hsrc0 : ps[0]? = some src := by rw [hps2]; simp
      have htgt0 : pt[0]? = some tgt := by rw [hpt2]; simp
      have hst : src = tgt := by
        have he := hsrc0.symm.trans (hmeet.trans htgt0)
        exact Option.some.inj he
      simp only [List.take_zero, List.reverse_nil, List.nil_append, List.foldl_nil]
      rw [hcur, hsrc0, hst]
    · rcases pathIdx_cons hpt with ⟨pt2, hpt2⟩
      subst hpt2
      rcases Nat.exists_eq_add_of_lt hm with ⟨m2, hm2⟩
      have htake : (tgt :: pt2).take m = tgt :: pt2.take m2 := by
        rw [hm2]
        simp [List.take_succ_cons]
      rw [htake]
      simp [List.reverse_cons, List.foldl_append]
  · rw [hh2, hhist]
    simp only [List.append_nil, List.reverse_reverse]
    rw [hdropeq]
    rw [← List.map_append]
    rw [List.take_append_drop]
  · have hlen : ((pt.take m).reverse ++ []).length = m := by
      simp [List.length_take]
      omega
    rw [hna2, hlen, hna]

theorem getElemOpt_isSome {l : List Nat} {k : Nat} :
    (l[k]?).isSome = true ↔ k < l.length := by
  constructor
  · intro h
    by_contra hc
    rw [List.getElem?_eq_none (by omega)] at h
    simp at h
  · intro h
    simp [List.getElem?_eq_getElem h]

theorem undo_variation_preserves {t : SGFTree} {src tgt : Nat} {fuel : Nat}
    {s s2 : GogameState}
    (hT : s.gameTree = some t) (hInv : NavInv s) (hcur : s.curNode = some src)
    (hvt : (getNode t tgt).isSome = true)
    (hPaths : ∀ i, i < t.nodes.length → (pathIdx t t.nodes.length i).isSome = true)
    (h : undo_variation t fuel src tgt s = some s2) :
    NavInv s2 ∧ s2.gameTree = some t := by
  rcases navInv_elim hInv hT with ⟨i, f, p, hc, hp, hh⟩
  have hisrc : i = src := by
    rw [hc] at hcur
    exact Option.some.inj hcur
  subst hisrc
  rcases Option.isSome_iff_exists.mp hvt with ⟨tn, htn⟩
  have htlt : tgt < t.nodes.length := getNode_lt htn
  rcases Option.isSome_iff_exists.mp (hPaths tgt htlt) with ⟨pt, hpt⟩
  by_cases hex : ∃ k : Nat, p[k]? = pt[k]? ∧ (p[k]?).isSome = true
  · have hP := Nat.find_spec hex
    have hne : ∀ k, k < Nat.find hex → p[k]? ≠ pt[k]? := by
      intro k hk he
      have hsk : (p[k]?).isSome = true := by
        rw [getElemOpt_isSome]
        have hm : Nat.find hex < p.length := getElemOpt_isSome.mp hP.2
        omega
      exact Nat.find_min hex hk ⟨he, hsk⟩
    by_cases hfl : Nat.find hex ≤ fuel
    · rcases undo_variation_spec hT hp hpt hc hh hne hP.1 hP.2 hfl with
        ⟨s3, hu, hcu, hhi, _, _, hgt, _⟩
      rw [hu] at h
      cases h
      exact ⟨navInv_intro hgt hcu hpt hhi, hgt⟩
    · have hw := undoVarWalk_fuel_out fuel [] hp hpt hc hh hne hP.2
        (by rw [← hP.1]; exact hP.2) (by omega)
      unfold undo_variation at h
      rw [hw] at h
      cases h
  · have hnm : ∀ k : Nat, p[k]? = pt[k]? → (p[k]?).isSome = true → False := by
      intro k h1 h2
      exact hex ⟨k, h1, h2⟩
    rcases undoVarWalk_nomeet fuel [] hp hpt hc hh hnm with hw | ⟨srcE, tgtE, path, s1, hw, hor⟩
    · unfold undo_variation at h
      rw [hw] at h
      cases h
    · unfold undo_variation at h
      simp only [hw] at h
      rcases hor with rfl | rfl
      · rcases tgtE with _ | te <;> simp only [] at h <;> cases h
      · rcases srcE with _ | se <;> simp only [] at h <;> cases h

theorem getNode_isSome_of_lt {t : SGFTree} {i : Nat} (h : i < t.nodes.length) :
    (getNode t i).isSome = true := by
  unfold getNode
  rw [List.get?_eq_getElem?]
  simp [List.getElem?_eq_getElem h]

theorem navInv_transfer {s1 s2 : GogameState}
    (hInv : NavInv s1) (hgt : s2.gameTree = s1.gameTree)
    (hc : s2.curNode = s1.curNode) (hb : s2.board = s1.board) : NavInv s2 := by
  intro t ht
  rcases hInv t (by rw [← hgt]; exact ht) with ⟨i, hci, f, p, hp, hh⟩
  exact ⟨i, by rw [hc, hci], f, p, hp, by rw [hb, hh]⟩

theorem scanVarDown_valid {t : SGFTree} {curLvl : Int} :
    ∀ (fuel : Nat) {st : Option Nat} {lvl : Int} {best : Option Nat} {j : Nat},
      (∀ b2, best = some b2 → b2 < t.nodes.length) →
      scanVarDown t curLvl fuel st lvl best = some (some j) → j < t.nodes.length := by
  intro fuel
  induction fuel with
  | zero =>
    intro st lvl best j hb h
    rcases st with _ | i
    · simp only [scanVarDown] at h
      exact hb j (Option.some.inj h)
    · simp only [scanVarDown] at h
      cases h
  | succ fl ih =>
    intro st lvl best j hb h
    rcases st with _ | i
    · simp only [scanVarDown] at h
      exact hb j (Option.some.inj h)
    · rw [scanVarDown] at h
      rcases hni : getNode t i with _ | n
      · simp only [hni] at h
        cases h
      simp only [hni] at h
      split at h
      · exact ih (fun b2 hb2 => by cases hb2; exact getNode_lt hni) h
      · exact ih hb h

theorem scanVarUp_valid {t : SGFTree} {curLvl : Int} :
    ∀ (fuel : Nat) {st : Option Nat} {lvl : Int} {best : Option Nat} {j : Nat},
      (∀ b2, best = some b2 → b2 < t.nodes.length) →
      scanVarUp t curLvl fuel st lvl best = some (some j) → j < t.nodes.length := by
  intro fuel
  induction fuel with
  | zero =>
    intro st lvl best j hb h
    rcases st with _ | i
    · simp only [scanVarUp] at h
      exact hb j (Option.some.inj h)
    · simp only [scanVarUp] at h
      cases h
  | succ fl ih =>
    intro st lvl best j hb h
    rcases st with _ | i
    · simp only [scanVarUp] at h
      exact hb j (Option.some.inj h)
    · rw [scanVarUp] at h
      rcases hni : getNode t i with _ | n
      · simp only [hni] at h
        cases h
      simp only [hni] at h
      split at h
      · exact ih (fun b2 hb2 => by cases hb2; exact getNode_lt hni) h
      · exact ih hb h

theorem moveVar_down_preserves {fuel : Nat} {s s2 : GogameState} {t : SGFTree}
    (hT : s.gameTree = some t) (hInv : NavInv s)
    (hPaths : ∀ i, i < t.nodes.length → (pathIdx t t.nodes.length i).isSome = true)
    (h : gogame_moveVar_down fuel s = some s2) :
    NavInv s2 ∧ s2.gameTree = some t := by
  unfold gogame_moveVar_down at h
  simp only [hT] at h
  rcases hFS : s.bShowFullScreenComment with _ | _
  · rw [hFS, if_neg Bool.false_ne_true] at h
    rcases navInv_elim hInv hT with ⟨i, f, p, hc, hp, hh⟩
    rcases pathIdx_shape hp with ⟨n, hn, _⟩
    simp only [hc, hn] at h
    rcases hvch : varChainHead t fuel i with _ | hd
    · rw [hvch] at h
      cases h
    simp only [hvch] at h
    rcases hscan : scanVarDown t n.draw_lvl fuel (some hd) 20000 none with _ | (_ | j)
    · rw [hscan] at h
      cases h
    · simp only [hscan] at h
      cases h
      exact ⟨hInv, hT⟩
    simp only [hscan] at h
    have hjlt : j < t.nodes.length :=
      scanVarDown_valid fuel (fun b2 hb2 => by cases hb2) hscan
    rcases huv : undo_variation t fuel i j s with _ | s1
    · rw [huv] at h
      cases h
    simp only [huv] at h
    have hpres := undo_variation_preserves hT hInv hc (getNode_isSome_of_lt hjlt) hPaths huv
    have hfr := updateCommentStr_frame h
    exact ⟨navInv_transfer hpres.1 hfr.1 hfr.2.1 hfr.2.2.1, hfr.1.trans hpres.2⟩
  · rw [hFS, if_pos rfl] at h
    cases h
    exact ⟨hInv, hT⟩

theorem moveVar_up_preserves {fuel : Nat} {s s2 : GogameState} {t : SGFTree}
    (hT : s.gameTree = some t) (hInv : NavInv s)
    (hPaths : ∀ i, i < t.nodes.length → (pathIdx t t.nodes.length i).isSome = true)
    (h : gogame_moveVar_up fuel s = some s2) :
    NavInv s2 ∧ s2.gameTree = some t := by
  unfold gogame_moveVar_up at h
  simp only [hT] at h
  rcases hFS : s.bShowFullScreenComment with _ | _
  · rw [hFS, if_neg Bool.false_ne_true] at h
    rcases navInv_elim hInv hT with ⟨i, f, p, hc, hp, hh⟩
    rcases pathIdx_shape hp with ⟨n, hn, _⟩
    simp only [hc, hn] at h
    rcases hvch : varChainHead t fuel i with _ | hd
    · rw [hvch] at h
      cases h
    simp only [hvch] at h
    rcases hscan : scanVarUp t n.draw_lvl fuel (some hd) (-20000) none with _ | (_ | j)
    · rw [hscan] at h
      cases h
    · simp only [hscan] at h
      cases h
      exact ⟨hInv, hT⟩
    simp only [hscan] at h
    have hjlt : j < t.nodes.length :=
      scanVarUp_valid fuel (fun b2 hb2 => by cases hb2) hscan
    rcases huv : undo_variation t fuel i j s with _ | s1
    · rw [huv] at h
      cases h
    simp only [huv] at h
    have hpres := undo_variation_preserves hT hInv hc (getNode_isSome_of_lt hjlt) hPaths huv
    have hfr := updateCommentStr_frame h
    exact ⟨navInv_transfer hpres.1 hfr.1 hfr.2.1 hfr.2.2.1, hfr.1.trans hpres.2⟩
  · rw [hFS, if_pos rfl] at h
    cases h
    exact ⟨hInv, hT⟩

theorem nextEvt_preserves {fuel : Nat} {s s2 : GogameState} {t : SGFTree}
    (hT : s.gameTree = some t)
    (hchild : ∀ i, i < t.nodes.length → childOK t i = true)
    (hInv : NavInv s)
    (h : gogame_move_to_nextEvt fuel s = some s2) :
    NavInv s2 ∧ s2.gameTree = some t := by
  unfold gogame_move_to_nextEvt at h
  simp only [hT] at h
  rcases hFS : s.bShowFullScreenComment with _ | _
  · rw [hFS, if_neg Bool.false_ne_true] at h
    rcases hb : gogame_move_forward_update false s with _ | s1
    · rw [hb] at h
      cases h
    simp only [hb] at h
    have hf := forward_preserves hT hchild hInv hb
    rcases hl : nextEvtLoop t fuel s1 with _ | s3
    · rw [hl] at h
      cases h
    simp only [hl] at h
    have hlp := nextEvtLoop_preserves hchild fuel hf.2 hf.1 hl
    have hfr := updateCommentStr_frame h
    exact ⟨navInv_transfer hlp.1 hfr.1 hfr.2.1 hfr.2.2.1, hfr.1.trans hlp.2⟩
  · rw [hFS, if_pos rfl] at h
    cases h
    exact ⟨hInv, hT⟩

theorem prevEvt_preserves {fuel : Nat} {s s2 : GogameState} {t : SGFTree}
    (hT : s.gameTree = some t) (hInv : NavInv s)
    (h : gogame_move_to_prevEvt fuel s = some s2) :
    NavInv s2 ∧ s2.gameTree = some t := by
  unfold gogame_move_to_prevEvt at h
  simp only [hT] at h
  rcases hFS : s.bShowFullScreenComment with _ | _
  · rw [hFS, if_neg Bool.false_ne_true] at h
    rcases hb : gogame_move_back_update false s with _ | s1
    · rw [hb] at h
      cases h
    simp only [hb] at h
    have hbf := back_frame hb
    rcases back_preserves hT hInv hb with ⟨hInv1, _⟩ | ⟨_, hcn1⟩
    · rcases hl : prevEvtLoop t fuel s1 with _ | s3
      · rw [hl] at h
        cases h
      simp only [hl] at h
      have hlp := prevEvtLoop_preserves fuel (hbf.1.trans hT) hInv1 hl
      have hfr := updateCommentStr_frame h
      exact ⟨navInv_transfer hlp.1 hfr.1 hfr.2.1 hfr.2.2.1, hfr.1.trans hlp.2⟩
    · rw [prevEvtLoop_none_cursor hcn1] at h
      cases h
  · rw [hFS, if_pos rfl] at h
    cases h
    exact ⟨hInv, hT⟩

theorem move_to_page_preserves {page : Int} {fuel : Nat} {s s2 : GogameState}
    {r : Bool} {t : SGFTree}
    (hT : s.gameTree = some t)
    (hchild : ∀ i, i < t.nodes.length → childOK t i = true)
    (hInv : NavInv s)
    (h : gogame_move_to_page page fuel s = some (s2, r)) :
    NavInv s2 ∧ s2.gameTree = some t := by
  unfold gogame_move_to_page at h
  simp only [hT] at h
  rcases hFS : s.bShowFullScreenComment with _ | _
  · rw [hFS, if_neg Bool.false_ne_true] at h
    rcases hc : s.curNode with _ | i
    · simp only [hc] at h
      cases h
      exact ⟨hInv, hT⟩
    simp only [hc] at h
    rcases navInv_elim hInv hT with ⟨i2, f, p, hc2, hp, hh⟩
    have hii : i2 = i := by
      rw [hc] at hc2
      exact (Option.some.inj hc2).symm
    subst hii
    rcases pathIdx_shape hp with ⟨n, hn, _⟩
    simp only [hn] at h
    split at h
    · cases h
      exact ⟨hInv, hT⟩
    · rcases hl : (if page < n.move_num then pageBackLoop t page fuel s
          else pageFwdLoop t page fuel s) with _ | s1
      · rw [hl] at h
        cases h
      simp only [hl] at h
      have hlp : NavInv s1 ∧ s1.gameTree = some t := by
        by_cases hdir : page < n.move_num
        · rw [if_pos hdir] at hl
          exact pageBackLoop_preserves fuel hT hInv hl
        · rw [if_neg hdir] at hl
          exact pageFwdLoop_preserves hchild fuel hT hInv hl
      rcases hup : updateCommentStr s1 with _ | s3
      · rw [hup] at h
        cases h
      simp only [hup] at h
      cases h
      have hfr := updateCommentStr_frame hup
      exact ⟨navInv_transfer hlp.1 hfr.1 hfr.2.1 hfr.2.2.1, hfr.1.trans hlp.2⟩
  · rw [hFS, if_pos rfl] at h
    cases h
    exact ⟨hInv, hT⟩

/-- C1 - projection consistency (spec Invariant I3 / P1): on a loaded,
well-formed tree, every public navigation operation that completes preserves
the invariant NavInv: the board projection's history is exactly the
per-node command frames of the root-to-cursor path, so its accumulated
state is the cumulative effect of applying, in root-to-cursor order, the
commands of every node on the path from the tree root to the cursor. -/
theorem C1_projection_consistency (s : GogameState) (t : SGFTree)
    (hT : s.gameTree = some t) (hWF : TreeWF t) (hInv : NavInv s) :
    (∀ s2, gogame_move_forward s = some s2 → NavInv s2) ∧
    (∀ s2, gogame_move_back s = some s2 → NavInv s2) ∧
    (∀ fuel s2, gogame_moveVar_down fuel s = some s2 → NavInv s2) ∧
    (∀ fuel s2, gogame_moveVar_up fuel s = some s2 → NavInv s2) ∧
    (∀ fuel s2, gogame_move_to_nextEvt fuel s = some s2 → NavInv s2) ∧
    (∀ fuel s2, gogame_move_to_prevEvt fuel s = some s2 → NavInv s2) ∧
    (∀ page fuel s2 r, gogame_move_to_page page fuel s = some (s2, r) → NavInv s2) := by
  have hchild : ∀ i, i < t.nodes.length → childOK t i = true := fun i hi => (hWF i hi).1
  have hPaths : ∀ i, i < t.nodes.length → (pathIdx t t.nodes.length i).isSome = true :=
    fun i hi => (hWF i hi).2.2
  refine ⟨?_, ?_, ?_, ?_, ?_, ?_, ?_⟩
  · intro s2 h
    exact (forward_preserves hT hchild hInv h).1
  · intro s2 h
    unfold gogame_move_back at h
    rcases back_preserves hT hInv h with ⟨hInv2, _⟩ | ⟨hb, _⟩
    · exact hInv2
    · cases hb
  · intro fuel s2 h
    exact (moveVar_down_preserves hT hInv hPaths h).1
  · intro fuel s2 h
    exact (moveVar_up_preserves hT hInv hPaths h).1
  · intro fuel s2 h
    exact (nextEvt_preserves hT hchild hInv h).1
  · intro fuel s2 h
    exact (prevEvt_preserves hT hInv h).1
  · intro page fuel s2 r h
    exact (move_to_page_preserves hT hchild hInv h).1

/-- Witness for C1: on the concrete loaded tree treeA, stepping forward from
the root preserves the projection-consistency invariant. -/
theorem C1_projection_consistency_witness :
    stA0.gameTree = some treeA ∧ TreeWF treeA ∧ NavInv stA0 ∧ NavInv stA1 := by
  have hInv : NavInv stA0 :=
    navInv_intro rfl rfl (show pathIdx treeA 1 0 = some [0] by decide) (by decide)
  exact ⟨rfl, by decide, hInv,
    (C1_projection_consistency stA0 treeA rfl (by decide) hInv).1 stA1 (by decide)⟩

/-- C2 - variation switch: from a cursor whose lock-step ascent meets the
target's ascent after exactly m parent steps (the common ancestor; for
same-ply variation siblings under Invariant I1 such an m exists), the
variation-switch operation undo_variation terminates with the cursor on the
target, the projection's history equal to the frames of the root-to-target
path (Invariant I3), and exactly m undo calls and m apply calls issued: one
undo per ascent step from the current node to the common ancestor and one
apply per descent step from the common ancestor to the target. -/
theorem C2_variation_switch (s : GogameState) (t : SGFTree) (src tgt : Nat)
    (ps pt : List Nat) (f g m fuel : Nat)
    (hT : s.gameTree = some t) (hc : s.curNode = some src)
    (hps : pathIdx t f src = some ps) (hpt : pathIdx t g tgt = some pt)
    (hh : s.board.history = ps.map (cmdsAt t))
    (hne : ∀ k, k < m → ps[k]? ≠ pt[k]?)
    (hmeet : ps[m]? = pt[m]?) (hsome : (ps[m]?).isSome = true)
    (hfuel : m ≤ fuel) :
    ∃ s2, undo_variation t fuel src tgt s = some s2 ∧
      s2.curNode = some tgt ∧
      s2.board.history = pt.map (cmdsAt t) ∧
      s2.nUndo = s.nUndo + m ∧ s2.nApply = s.nApply + m := by
  rcases undo_variation_spec hT hps hpt hc hh hne hmeet hsome hfuel with
    ⟨s2, h1, h2, h3, h4, h5, _, _⟩
  exact ⟨s2, h1, h2, h3, h4, h5⟩

/-- Witness for C2: switching from variation node 1 to its sibling 2 in
treeB (common ancestor = root, one ascent step) issues one undo and one
apply and lands on the target with a consistent projection. -/
theorem C2_variation_switch_witness :
    ∃ s2, undo_variation treeB 5 1 2 stB1 = some s2 ∧
      s2.curNode = some 2 ∧
      s2.board.history = [2, 0].map (cmdsAt treeB) ∧
      s2.nUndo = stB1.nUndo + 1 ∧ s2.nApply = stB1.nApply + 1 := by
  have h := C2_variation_switch stB1 treeB 1 2 [1, 0] [2, 0] 2 2 1 5 rfl rfl
    (by decide) (by decide) (by decide) (by decide) (by decide) (by decide) (by decide)
  simpa using h

/-- C3 counterexample: gogame_move_to_page returns 0 (false) when the cursor
already sits on the requested ply (claim says this reports success), and it
returns 1 (true) when the record is exhausted at ply 2 before reaching the
requested ply 9 (claim says this reports failure).  Both directions of
"returns true iff, on return, the cursor's ply equals the target" fail. -/
theorem C3_counterexample :
    (gogame_move_to_page 0 5 stA0 = some (stA0, false) ∧
      stA0.curNode = some 0 ∧ nA0.move_num = 0) ∧
    (gogame_move_to_page 9 9 stA0 = some (stA9, true) ∧
      stA9.curNode = some 2 ∧ nA2.move_num = 2) := by
  decide

/-- C3 amended: gogame_move_to_page returns true iff a record is loaded, the
full-screen-comment mode is off, the cursor exists, and the requested ply
differs from the cursor's ply at entry; in particular it returns false when
the cursor is already at the target, and a true return does not mean the
target was reached (the record may be exhausted first). -/
theorem C3_move_to_page_flag (page : Int) (fuel : Nat) (s s2 : GogameState)
    (r : Bool) (t : SGFTree) (i : Nat) (n : SGFNode)
    (hT : s.gameTree = some t) (hFS : s.bShowFullScreenComment = false)
    (hc : s.curNode = some i) (hn : getNode t i = some n)
    (h : gogame_move_to_page page fuel s = some (s2, r)) :
    r = true ↔ page ≠ n.move_num := by
  unfold gogame_move_to_page at h
  simp only [hT, hc, hn] at h
  rw [hFS, if_neg Bool.false_ne_true] at h
  split at h
  · rename_i he
    cases h
    simp [he]
  · rename_i he
    rcases hl : (if page < n.move_num then pageBackLoop t page fuel s
        else pageFwdLoop t page fuel s) with _ | s1
    · rw [hl] at h
      cases h
    simp only [hl] at h
    rcases hup : updateCommentStr s1 with _ | s3
    · rw [hup] at h
      cases h
    simp only [hup] at h
    cases h
    simp [he]

/-- Witness for C3's amended theorem: jumping to ply 9 from the root of
treeA returns true because 9 differs from the root's ply 0. -/
theorem C3_move_to_page_flag_witness : true = true ↔ (9 : Int) ≠ nA0.move_num := by
  exact C3_move_to_page_flag 9 9 stA0 stA9 true treeA 0 nA0 rfl rfl rfl (by decide) (by decide)

/-- C4 counterexample: at node 1 of treeA the annotation is "a" and the
cached comment is already "a" with a clear dirty flag; the claim says the
refresh must clear (keep clear) the dirty flag, but updateCommentStr sets
it: when the annotation is present the cache is rewritten and the dirty
flag set unconditionally, with no equality comparison. -/
theorem C4_counterexample :
    nodeComment nA1 = some "a" ∧ stC4.comment_str = some "a" ∧
    stC4.comment_update = false ∧
    updateCommentStr stC4 = some { stC4 with comment_update := true } := by
  decide

/-- C4 amended: the refresh reads the cursor's annotation; if it is absent
and the cache is empty, the dirty flag is cleared; if it is absent but the
cache holds a value, the cache is cleared and the dirty flag set; if it is
present, the cache is updated and the dirty flag set unconditionally - even
when the annotation equals the cached value. -/
theorem C4_updateCommentStr_cases (s : GogameState) (t : SGFTree) (i : Nat) (n : SGFNode)
    (hT : s.gameTree = some t) (hc : s.curNode = some i) (hn : getNode t i = some n) :
    (nodeComment n = none → s.comment_str = none →
      updateCommentStr s = some { s with comment_update := false }) ∧
    (∀ v, nodeComment n = none → s.comment_str = some v →
      updateCommentStr s = some { s with comment_str := none, comment_update := true }) ∧
    (∀ msg, nodeComment n = some msg →
      updateCommentStr s = some { s with comment_str := some msg, comment_update := true }) := by
  refine ⟨?_, ?_, ?_⟩
  · intro hcm hcs
    unfold updateCommentStr
    simp only [hT, hc, hn, hcm, hcs]
  · intro v hcm hcs
    unfold updateCommentStr
    simp only [hT, hc, hn, hcm, hcs]
  · intro msg hcm
    unfold updateCommentStr
    simp only [hT, hc, hn, hcm]

/-- Witness for C4's amended theorem: at stC4 (annotation "a", cache "a")
the refresh rewrites the cache and sets the dirty flag. -/
theorem C4_updateCommentStr_cases_witness :
    updateCommentStr stC4 = some { stC4 with comment_str := some "a", comment_update := true } :=
  (C4_updateCommentStr_cases stC4 treeA 1 nA1 rfl rfl (by decide)).2.2 "a" (by decide)

theorem updateCommentStr_cursor {s s2 : GogameState}
    (h : updateCommentStr s = some s2) : s2.curNode.isSome = true := by
  have hfr := updateCommentStr_frame h
  unfold updateCommentStr at h
  rcases hT : s.gameTree with _ | t
  · simp only [hT] at h
    cases h
  simp only [hT] at h
  rcases hc : s.curNode with _ | i
  · simp only [hc] at h
    cases h
  rw [hfr.2.1, hc]
  rfl

/-- C5 - desynchronized step-back is fatal: with the board projection
modelled from the spec (undo pops one frame, false if none), if undo
reports success while the current node has no parent, gogame_move_back
crashes on the assert inside updateCommentStr (modelled as none) instead of
silently continuing; and every run of gogame_move_back that does return
leaves a valid (non-NULL) cursor. -/
theorem C5_back_fatal_on_desync (s : GogameState) (t : SGFTree) (i : Nat) (n : SGFNode)
    (hT : s.gameTree = some t) (hFS : s.bShowFullScreenComment = false)
    (hc : s.curNode = some i) (hn : getNode t i = some n) :
    ((s.board.undo).1 = true → n.parent = none → gogame_move_back s = none) ∧
    (∀ s2, gogame_move_back s = some s2 → s2.curNode.isSome = true) := by
  constructor
  · intro hu hpar
    rcases hus : s.board.undo with ⟨ok, bd⟩
    rw [hus] at hu
    simp at hu
    subst hu
    unfold gogame_move_back gogame_move_back_update
    simp only [hT, hus, if_true, hc, hn, hpar]
    rw [hFS, if_neg Bool.false_ne_true]
    rfl
  · intro s2 h
    unfold gogame_move_back gogame_move_back_update at h
    simp only [hT] at h
    rw [hFS, if_neg Bool.false_ne_true] at h
    rcases hus : s.board.undo with ⟨ok, bd⟩
    simp only [hus] at h
    rcases ok with _ | _
    · rw [if_neg Bool.false_ne_true] at h
      simp only [if_true] at h
      exact updateCommentStr_cursor h
    · simp only [if_true, hc, hn] at h
      exact updateCommentStr_cursor h

/-- Witness for C5: at the root of treeA with the root frame on the stack
the undo succeeds, the root has no parent, and gogame_move_back crashes;
from the same root with an empty stack the undo fails and the returned
state keeps a valid cursor. -/
theorem C5_back_fatal_on_desync_witness :
    gogame_move_back stA0 = none ∧ stA0emptyBack.curNode.isSome = true := by
  constructor
  · exact (C5_back_fatal_on_desync stA0 treeA 0 nA0 rfl rfl rfl (by decide)).1
      (by decide) (by decide)
  · exact (C5_back_fatal_on_desync stA0empty treeA 0 nA0 rfl rfl rfl (by decide)).2
      stA0emptyBack (by decide)

theorem forward_true_eq {s : GogameState} {t : SGFTree} {i j : Nat} {n cn : SGFNode}
    (hT : s.gameTree = some t) (hFS : s.bShowFullScreenComment = false)
    (hc : s.curNode = some i) (hn : getNode t i = some n)
    (hch : n.child = some j) (hcn : getNode t j = some cn) :
    gogame_move_forward s =
      updateCommentStr { s with curNode := some j, board := s.board.applyFrame (nodeCmds cn), nApply := s.nApply + 1 } := by
  unfold gogame_move_forward gogame_move_forward_update
  simp only [hT, hc, hn, hch]
  rw [hFS, if_neg Bool.false_ne_true]
  simp only [apply_sgf_cmds_to_board, hT, hcn]
  simp only [if_true]

theorem back_true_eq {s : GogameState} {t : SGFTree} {j : Nat} {cn : SGFNode}
    {F : List BoardCmd} {H : List (List BoardCmd)}
    (hT : s.gameTree = some t) (hFS : s.bShowFullScreenComment = false)
    (hc : s.curNode = some j) (hcn : getNode t j = some cn)
    (hh : s.board.history = F :: H) :
    gogame_move_back s =
      updateCommentStr { s with curNode := cn.parent, board := ⟨H⟩, nUndo := s.nUndo + 1 } := by
  unfold gogame_move_back gogame_move_back_update
  have hu : s.board.undo = (true, ⟨H⟩) := by
    unfold Board.undo
    rw [hh]
  simp only [hT, hu, if_true, hc, hcn]
  rw [hFS, if_neg Bool.false_ne_true]

/-- C6 - round trip (spec P2): from any state on a loaded tree whose cursor
has a main child that points back to it (Invariant I2), step_forward
followed by step_back returns the cursor to the original node and leaves
the board projection exactly equal to its state before the pair of calls. -/
theorem C6_round_trip (s : GogameState) (t : SGFTree) (i j : Nat) (n cn : SGFNode)
    (hT : s.gameTree = some t) (hFS : s.bShowFullScreenComment = false)
    (hc : s.curNode = some i) (hn : getNode t i = some n)
    (hch : n.child = some j) (hcn : getNode t j = some cn) (hpar : cn.parent = some i) :
    ∃ s2, (gogame_move_forward s).bind gogame_move_back = some s2 ∧
      s2.curNode = s.curNode ∧ s2.board = s.board := by
  have hfe := forward_true_eq hT hFS hc hn hch hcn
  rcases updateCommentStr_exists (s := { s with curNode := some j, board := s.board.applyFrame (nodeCmds cn), nApply := s.nApply + 1 }) hT rfl hcn with ⟨s1u, hup⟩
  have hofr := updateCommentStr_frame hup
  have hgt1 : s1u.gameTree = some t := hofr.1.trans hT
  have hfs1 : s1u.bShowFullScreenComment = false := hofr.2.2.2.2.2.trans hFS
  have hc1 : s1u.curNode = some j := hofr.2.1
  have hh1 : s1u.board.history = nodeCmds cn :: s.board.history := by
    rw [hofr.2.2.1]
    rfl
  have hbe := back_true_eq hgt1 hfs1 hc1 hcn hh1
  rcases updateCommentStr_exists (s := { s1u with curNode := cn.parent, board := ⟨s.board.history⟩, nUndo := s1u.nUndo + 1 }) hgt1 hpar hn with ⟨s2f, hup2⟩
  have hofr2 := updateCommentStr_frame hup2
  refine ⟨s2f, ?_, ?_, ?_⟩
  · rw [hfe, hup]
    rw [Option.some_bind]
    rw [hbe, hup2]
  · rw [hofr2.2.1, hc]
    exact hpar
  · rw [hofr2.2.2.1]

/-- Witness for C6: forward then back from the root of treeA restores the
cursor and the projection. -/
theorem C6_round_trip_witness :
    ∃ s2, (gogame_move_forward stA0).bind gogame_move_back = some s2 ∧
      s2.curNode = stA0.curNode ∧ s2.board = stA0.board :=
  C6_round_trip stA0 treeA 0 1 nA0 nA1 rfl rfl rfl (by decide) (by decide)
    (by decide) (by decide)

theorem nextEvtLoop_exit {t : SGFTree} (fuel : Nat) :
    ∀ {s s2 : GogameState}, nextEvtLoop t fuel s = some s2 →
      ∃ i n, s2.curNode = some i ∧ getNode t i = some n ∧
        ¬(n.child.isSome = true ∧ n.next = none ∧ nodeComment n = none) := by
  induction fuel with
  | zero =>
    intro s s2 h
    rw [nextEvtLoop] at h
    rcases hc : s.curNode with _ | i
    · simp only [hc] at h
      cases h
    simp only [hc] at h
    rcases hn : getNode t i with _ | n
    · simp only [hn] at h
      cases h
    simp only [hn] at h
    split at h
    · cases h
    · rename_i hcond
      cases h
      exact ⟨i, n, hc, hn, hcond⟩
  | succ fl ih =>
    intro s s2 h
    rw [nextEvtLoop] at h
    rcases hc : s.curNode with _ | i
    · simp only [hc] at h
      cases h
    simp only [hc] at h
    rcases hn : getNode t i with _ | n
    · simp only [hn] at h
      cases h
    simp only [hn] at h
    split at h
    · rcases hb : gogame_move_forward_update false s with _ | s1
      · rw [hb] at h
        cases h
      simp only [hb] at h
      exact ih h
    · rename_i hcond
      cases h
      exact ⟨i, n, hc, hn, hcond⟩

theorem prevEvtLoop_exit {t : SGFTree} (fuel : Nat) :
    ∀ {s s2 : GogameState}, prevEvtLoop t fuel s = some s2 →
      ∃ i n, s2.curNode = some i ∧ getNode t i = some n ∧
        (n.parent = none ∨ n.next ≠ none ∨
         (∃ p pn c cn, n.parent = some p ∧ getNode t p = some pn ∧
            pn.child = some c ∧ getNode t c = some cn ∧
            ¬(cn.next = none ∧ nodeComment n = none))) := by
  induction fuel with
  | zero =>
    intro s s2 h
    rw [prevEvtLoop] at h
    rcases hc : s.curNode with _ | i
    · simp only [hc] at h
      cases h
    simp only [hc] at h
    rcases hn : getNode t i with _ | n
    · simp only [hn] at h
      cases h
    simp only [hn] at h
    rcases hpar : n.parent with _ | q
    · simp only [hpar] at h
      cases h
      exact ⟨i, n, hc, hn, Or.inl hpar⟩
    simp only [hpar] at h
    split at h
    · rename_i hnx
      rcases hpn : getNode t q with _ | pn
      · simp only [hpn] at h
        cases h
      simp only [hpn] at h
      rcases hpc : pn.child with _ | c
      · simp only [hpc] at h
        cases h
      simp only [hpc] at h
      rcases hcn2 : getNode t c with _ | cn
      · simp only [hcn2] at h
        cases h
      simp only [hcn2] at h
      split at h
      · cases h
      · rename_i hcond
        cases h
        exact ⟨i, n, hc, hn, Or.inr (Or.inr ⟨q, pn, c, cn, hpar, hpn, hpc, hcn2, hcond⟩)⟩
    · rename_i hnx
      cases h
      refine ⟨i, n, hc, hn, Or.inr (Or.inl ?_)⟩
      rcases he : n.next with _ | v
      · exact absurd he hnx
      · simp
  | succ fl ih =>
    intro s s2 h
    rw [prevEvtLoop] at h
    rcases hc : s.curNode with _ | i
    · simp only [hc] at h
      cases h
    simp only [hc] at h
    rcases hn : getNode t i with _ | n
    · simp only [hn] at h
      cases h
    simp only [hn] at h
    rcases hpar : n.parent with _ | q
    · simp only [hpar] at h
      cases h
      exact ⟨i, n, hc, hn, Or.inl hpar⟩
    simp only [hpar] at h
    split at h
    · rename_i hnx
      rcases hpn : getNode t q with _ | pn
      · simp only [hpn] at h
        cases h
      simp only [hpn] at h
      rcases hpc : pn.child with _ | c
      · simp only [hpc] at h
        cases h
      simp only [hpc] at h
      rcases hcn2 : getNode t c with _ | cn
      · simp only [hcn2] at h
        cases h
      simp only [hcn2] at h
      split at h
      · rcases hb : gogame_move_back_update false s with _ | s1
        · rw [hb] at h
          cases h
        simp only [hb] at h
        exact ih h
      · rename_i hcond
        cases h
        exact ⟨i, n, hc, hn, Or.inr (Or.inr ⟨q, pn, c, cn, hpar, hpn, hpc, hcn2, hcond⟩)⟩
    · rename_i hnx
      cases h
      refine ⟨i, n, hc, hn, Or.inr (Or.inl ?_)⟩
      rcases he : n.next with _ | v
      · exact absurd he hnx
      · simp

/-- C7 counterexample: from the root of treeC7, skip-to-next-event stops on
node 2, which carries no annotation, is not a leaf (it has child 4), and has
exactly one forward continuation (child 4, which has no sibling) - so it is
none of the three stop kinds of the claim; meanwhile the skip stepped
straight through node 1, which has two children (2 and 3, since node 2's
next sibling is 3) and hence is a branch point in the claim's sense.  The
code's actual stop test is "the node has a next variation sibling", not
"the node has more than one continuation in the travel direction". -/
theorem C7_counterexample :
    gogame_move_to_nextEvt 10 stC7 = some stC7done ∧
    stC7done.curNode = some 2 ∧ getNode treeC7 2 = some nC2 ∧
    nC2.child = some 4 ∧ nodeComment nC2 = none ∧
    getNode treeC7 4 = some nC4 ∧ nC4.next = none ∧
    nC1.child = some 2 ∧ nC2.next = some 3 := by
  decide

/-- C7 amended: after one initial step, skip-to-next-event keeps stepping
forward exactly while the node has a main child, has no next variation
sibling, and carries no annotation, so the node it stops on is a leaf, a
node with a next sibling, or an annotated node; skip-to-previous-event
keeps stepping back exactly while the node has a parent, has no next
sibling, the parent's first child has no sibling, and carries no
annotation, so it stops on the root, a node at a sibling fork (it or its
parent's first child has a next sibling), or an annotated node. -/
theorem C7_event_skip_stops (fuel : Nat) (s s2 : GogameState) (t : SGFTree)
    (hT : s.gameTree = some t) (hFS : s.bShowFullScreenComment = false) :
    (gogame_move_to_nextEvt fuel s = some s2 →
      ∃ i n, s2.curNode = some i ∧ getNode t i = some n ∧
        (n.child = none ∨ n.next ≠ none ∨ nodeComment n ≠ none)) ∧
    (gogame_move_to_prevEvt fuel s = some s2 →
      ∃ i n, s2.curNode = some i ∧ getNode t i = some n ∧
        (n.parent = none ∨ n.next ≠ none ∨
         (∃ p pn c cn, n.parent = some p ∧ getNode t p = some pn ∧
            pn.child = some c ∧ getNode t c = some cn ∧
            (cn.next ≠ none ∨ nodeComment n ≠ none)))) := by
  constructor
  · intro h
    unfold gogame_move_to_nextEvt at h
    simp only [hT] at h
    rw [hFS, if_neg Bool.false_ne_true] at h
    rcases hb : gogame_move_forward_update false s with _ | s1
    · rw [hb] at h
      cases h
    simp only [hb] at h
    rcases hl : nextEvtLoop t fuel s1 with _ | s3
    · rw [hl] at h
      cases h
    simp only [hl] at h
    rcases nextEvtLoop_exit fuel hl with ⟨i, n, hci, hni, hcond⟩
    have hfr := updateCommentStr_frame h
    refine ⟨i, n, hfr.2.1.trans hci, hni, ?_⟩
    by_cases h1 : n.child = none
    · exact Or.inl h1
    by_cases h2 : n.next = none
    · by_cases h3 : nodeComment n = none
      · exfalso
        apply hcond
        refine ⟨?_, h2, h3⟩
        rcases hch : n.child with _ | j
        · exact absurd hch h1
        · rfl
      · exact Or.inr (Or.inr h3)
    · exact Or.inr (Or.inl h2)
  · intro h
    unfold gogame_move_to_prevEvt at h
    simp only [hT] at h
    rw [hFS, if_neg Bool.false_ne_true] at h
    rcases hb : gogame_move_back_update false s with _ | s1
    · rw [hb] at h
      cases h
    simp only [hb] at h
    rcases hl : prevEvtLoop t fuel s1 with _ | s3
    · rw [hl] at h
      cases h
    simp only [hl] at h
    rcases prevEvtLoop_exit fuel hl with ⟨i, n, hci, hni, hcond⟩
    have hfr := updateCommentStr_frame h
    refine ⟨i, n, hfr.2.1.trans hci, hni, ?_⟩
    rcases hcond with h1 | h1 | ⟨p, pn, c, cn, hp1, hp2, hp3, hp4, hp5⟩
    · exact Or.inl h1
    · exact Or.inr (Or.inl h1)
    · refine Or.inr (Or.inr ⟨p, pn, c, cn, hp1, hp2, hp3, hp4, ?_⟩)
      rcases not_and_or.mp hp5 with h4 | h4
      · exact Or.inl h4
      · exact Or.inr h4

/-- Witness for C7's amended theorem: the skip from the root of treeC7 stops
on node 2, which indeed has a next variation sibling. -/
theorem C7_event_skip_stops_witness :
    ∃ i n, stC7done.curNode = some i ∧ getNode treeC7 i = some n ∧
      (n.child = none ∨ n.next ≠ none ∨ nodeComment n ≠ none) :=
  (C7_event_skip_stops 10 stC7 stC7done treeC7 rfl rfl).1 (by decide)

/-- C9 - no record loaded: with gameTree = NULL every public navigation
operation returns immediately, leaving the whole state (cursor, projection,
comment cache, call counters) unchanged, hence issuing no apply/undo
calls; gogame_move_to_page additionally returns 0. -/
theorem C9_no_record_noop (s : GogameState) (hT : s.gameTree = none) :
    gogame_move_forward s = some s ∧ gogame_move_back s = some s ∧
    (∀ fuel, gogame_moveVar_down fuel s = some s) ∧
    (∀ fuel, gogame_moveVar_up fuel s = some s) ∧
    (∀ fuel, gogame_move_to_nextEvt fuel s = some s) ∧
    (∀ fuel, gogame_move_to_prevEvt fuel s = some s) ∧
    (∀ page fuel, gogame_move_to_page page fuel s = some (s, false)) := by
  refine ⟨?_, ?_, ?_, ?_, ?_, ?_, ?_⟩
  · unfold gogame_move_forward gogame_move_forward_update
    simp only [hT]
  · unfold gogame_move_back gogame_move_back_update
    simp only [hT]
  · intro fuel
    unfold gogame_moveVar_down
    simp only [hT]
  · intro fuel
    unfold gogame_moveVar_up
    simp only [hT]
  · intro fuel
    unfold gogame_move_to_nextEvt
    simp only [hT]
  · intro fuel
    unfold gogame_move_to_prevEvt
    simp only [hT]
  · intro page fuel
    unfold gogame_move_to_page
    simp only [hT]

/-- Witness for C9 at the empty viewer state. -/
theorem C9_no_record_noop_witness :
    gogame_move_forward stNone = some stNone ∧
    gogame_move_to_page 3 5 stNone = some (stNone, false) := by
  have h := C9_no_record_noop stNone rfl
  exact ⟨h.1, h.2.2.2.2.2.2 3 5⟩

/-- C10 - full-screen-comment mode: while bShowFullScreenComment is set,
every navigation operation returns immediately with the whole state
(cursor, board projection, comment cache, call counters) unchanged. -/
theorem C10_fullscreen_noop (s : GogameState) (hFS : s.bShowFullScreenComment = true) :
    gogame_move_forward s = some s ∧ gogame_move_back s = some s ∧
    (∀ fuel, gogame_moveVar_down fuel s = some s) ∧
    (∀ fuel, gogame_moveVar_up fuel s = some s) ∧
    (∀ fuel, gogame_move_to_nextEvt fuel s = some s) ∧
    (∀ fuel, gogame_move_to_prevEvt fuel s = some s) ∧
    (∀ page fuel, gogame_move_to_page page fuel s = some (s, false)) := by
  refine ⟨?_, ?_, ?_, ?_, ?_, ?_, ?_⟩
  · unfold gogame_move_forward gogame_move_forward_update
    rcases hT : s.gameTree with _ | t
    · simp only [hT]
    · simp only [hT]
      rw [hFS, if_pos rfl]
  · unfold gogame_move_back gogame_move_back_update
    rcases hT : s.gameTree with _ | t
    · simp only [hT]
    · simp only [hT]
      rw [hFS, if_pos rfl]
  · intro fuel
    unfold gogame_moveVar_down
    rcases hT : s.gameTree with _ | t
    · simp only [hT]
    · simp only [hT]
      rw [hFS, if_pos rfl]
  · intro fuel
    unfold gogame_moveVar_up
    rcases hT : s.gameTree with _ | t
    · simp only [hT]
    · simp only [hT]
      rw [hFS, if_pos rfl]
  · intro fuel
    unfold gogame_move_to_nextEvt
    rcases hT : s.gameTree with _ | t
    · simp only [hT]
    · simp only [hT]
      rw [hFS, if_pos rfl]
  · intro fuel
    unfold gogame_move_to_prevEvt
    rcases hT : s.gameTree with _ | t
    · simp only [hT]
    · simp only [hT]
      rw [hFS, if_pos rfl]
  · intro page fuel
    unfold gogame_move_to_page
    rcases hT : s.gameTree with _ | t
    · simp only [hT]
    · simp only [hT]
      rw [hFS, if_pos rfl]

/-- Witness for C10 at a loaded state with the full-screen flag on. -/
theorem C10_fullscreen_noop_witness :
    gogame_move_forward stFS = some stFS ∧
    gogame_move_to_page 3 5 stFS = some (stFS, false) := by
  have h := C10_fullscreen_noop stFS rfl
  exact ⟨h.1, h.2.2.2.2.2.2 3 5⟩

theorem forward_false_spec {s s2 : GogameState} {t : SGFTree}
    (hT : s.gameTree = some t) (hFS : s.bShowFullScreenComment = false)
    (h : gogame_move_forward_update false s = some s2) :
    (∃ i n, s.curNode = some i ∧ getNode t i = some n ∧ n.child = none ∧ s2 = s) ∨
    (∃ i n j cn, s.curNode = some i ∧ getNode t i = some n ∧ n.child = some j ∧
       getNode t j = some cn ∧
       s2 = { s with curNode := some j, board := s.board.applyFrame (nodeCmds cn),
                     nApply := s.nApply + 1 }) := by
  unfold gogame_move_forward_update at h
  simp only [hT] at h
  rw [hFS, if_neg Bool.false_ne_true] at h
  rcases hc : s.curNode with _ | i
  · simp only [hc] at h
    cases h
  simp only [hc] at h
  rcases hn : getNode t i with _ | n
  · simp only [hn] at h
    cases h
  simp only [hn] at h
  rcases hch : n.child with _ | j
  · simp only [hch] at h
    cases h
    exact Or.inl ⟨i, n, rfl, hn, hch, rfl⟩
  simp only [hch] at h
  rcases hcn : getNode t j with _ | cn
  · simp only [apply_sgf_cmds_to_board, hT, hcn] at h
    cases h
  simp only [apply_sgf_cmds_to_board, hT, hcn] at h
  rw [if_neg Bool.false_ne_true] at h
  cases h
  refine Or.inr ⟨i, n, j, cn, rfl, hn, hch, hcn, ?_⟩
  simp [hT, hFS]

theorem back_false_spec {s s2 : GogameState} {t : SGFTree}
    (hT : s.gameTree = some t) (hFS : s.bShowFullScreenComment = false)
    (h : gogame_move_back_update false s = some s2) :
    (s.board.undo.1 = true ∧ ∃ i n, s.curNode = some i ∧ getNode t i = some n ∧
       s2 = { s with curNode := n.parent, board := s.board.undo.2, nUndo := s.nUndo + 1 }) ∨
    (s.board.undo.1 = false ∧
       s2 = { s with board := s.board.undo.2, nUndo := s.nUndo + 1 }) := by
  unfold gogame_move_back_update at h
  simp only [hT] at h
  rw [hFS, if_neg Bool.false_ne_true] at h
  rcases hu : s.board.undo with ⟨ok, bd2⟩
  simp only [hu] at h
  rcases ok with _ | _
  · rw [if_neg Bool.false_ne_true] at h
    rw [if_neg Bool.false_ne_true] at h
    cases h
    refine Or.inr ⟨rfl, ?_⟩
    simp [hT, hFS]
  · simp only [if_true] at h
    rcases hc : s.curNode with _ | i
    · simp only [hc] at h
      cases h
    simp only [hc] at h
    rcases hn : getNode t i with _ | n
    · simp only [hn] at h
      cases h
    simp only [hn] at h
    rw [if_neg Bool.false_ne_true] at h
    cases h
    refine Or.inl ⟨rfl, i, n, rfl, hn, ?_⟩
    simp [hT, hFS]

theorem pageBackLoop_guard_false {t : SGFTree} {page : Int} {fuel : Nat}
    {s : GogameState} {i : Nat} {n : SGFNode}
    (hc : s.curNode = some i) (hn : getNode t i = some n)
    (hcond : ¬(n.parent.isSome = true ∧ page < n.move_num)) :
    pageBackLoop t page fuel s = some s := by
  cases fuel <;> (rw [pageBackLoop]; simp only [hc, hn]; rw [if_neg hcond])

theorem pageFwdLoop_guard_false {t : SGFTree} {page : Int} {fuel : Nat}
    {s : GogameState} {i : Nat} {n : SGFNode}
    (hc : s.curNode = some i) (hn : getNode t i = some n)
    (hcond : ¬(n.child.isSome = true ∧ n.move_num < page)) :
    pageFwdLoop t page fuel s = some s := by
  cases fuel <;> (rw [pageFwdLoop]; simp only [hc, hn]; rw [if_neg hcond])

theorem pageBackLoop_exit {t : SGFTree} {page : Int} (fuel : Nat) :
    ∀ {s s2 : GogameState} {i : Nat} {n : SGFNode},
      s.gameTree = some t → s.bShowFullScreenComment = false →
      (∀ i2, i2 < t.nodes.length → parentOK t i2 = true) →
      s.curNode = some i → getNode t i = some n → page ≤ n.move_num →
      pageBackLoop t page fuel s = some s2 →
      s2.gameTree = some t ∧ s2.bShowFullScreenComment = false ∧
      ∃ i2 n2, s2.curNode = some i2 ∧ getNode t i2 = some n2 ∧
        (page = n2.move_num ∨ (n2.parent = none ∧ page < n2.move_num)) := by
  induction fuel with
  | zero =>
    intro s s2 i n hT hFS hpOK hc hn hle h
    rw [pageBackLoop] at h
    simp only [hc, hn] at h
    split at h
    · cases h
    · rename_i hcond
      cases h
      refine ⟨hT, hFS, i, n, hc, hn, ?_⟩
      by_cases hpm : page = n.move_num
      · exact Or.inl hpm
      · have hlt : page < n.move_num := by omega
        have hps : ¬ n.parent.isSome = true := fun hps => hcond ⟨hps, hlt⟩
        refine Or.inr ⟨?_, hlt⟩
        rcases hpp : n.parent with _ | q
        · rfl
        · rw [hpp] at hps
          exact absurd rfl hps
  | succ fl ih =>
    intro s s2 i n hT hFS hpOK hc hn hle h
    rw [pageBackLoop] at h
    simp only [hc, hn] at h
    split at h
    · rename_i hcond
      rcases hb : gogame_move_back_update false s with _ | s1
      · rw [hb] at h
        cases h
      simp only [hb] at h
      rcases back_false_spec hT hFS hb with ⟨hu, i3, n3, hc3, hn3, hs1⟩ | ⟨hu, hs1⟩
      · rw [hc] at hc3
        injection hc3 with hii
        subst hii
        rw [hn] at hn3
        injection hn3 with hnn
        subst hnn
        rcases hpp : n.parent with _ | q
        · rw [hpp] at hcond
          exact absurd hcond.1 (by simp)
        rcases parentOK_elim (hpOK i (getNode_lt hn)) hn hpp with ⟨qn, hqn, hmv⟩
        subst hs1
        exact ih (s := { s with curNode := n.parent, board := s.board.undo.2, nUndo := s.nUndo + 1 }) hT hFS hpOK (by simp [hpp]) hqn (by omega) h
      · subst hs1
        exact ih (s := { s with board := s.board.undo.2, nUndo := s.nUndo + 1 }) hT hFS hpOK hc hn hle h
    · rename_i hcond
      cases h
      refine ⟨hT, hFS, i, n, hc, hn, ?_⟩
      by_cases hpm : page = n.move_num
      · exact Or.inl hpm
      · have hlt : page < n.move_num := by omega
        have hps : ¬ n.parent.isSome = true := fun hps => hcond ⟨hps, hlt⟩
        refine Or.inr ⟨?_, hlt⟩
        rcases hpp : n.parent with _ | q
        · rfl
        · rw [hpp] at hps
          exact absurd rfl hps

theorem pageFwdLoop_exit {t : SGFTree} {page : Int} (fuel : Nat) :
    ∀ {s s2 : GogameState} {i : Nat} {n : SGFNode},
      s.gameTree = some t → s.bShowFullScreenComment = false →
      (∀ i2, i2 < t.nodes.length → childOK t i2 = true) →
      (∀ i2, i2 < t.nodes.length → parentOK t i2 = true) →
      s.curNode = some i → getNode t i = some n → n.move_num ≤ page →
      pageFwdLoop t page fuel s = some s2 →
      s2.gameTree = some t ∧ s2.bShowFullScreenComment = false ∧
      ∃ i2 n2, s2.curNode = some i2 ∧ getNode t i2 = some n2 ∧
        (page = n2.move_num ∨ (n2.child = none ∧ n2.move_num < page)) := by
  induction fuel with
  | zero =>
    intro s s2 i n hT hFS hcOK hpOK hc hn hle h
    rw [pageFwdLoop] at h
    simp only [hc, hn] at h
    split at h
    · cases h
    · rename_i hcond
      cases h
      refine ⟨hT, hFS, i, n, hc, hn, ?_⟩
      by_cases hpm : page = n.move_num
      · exact Or.inl hpm
      · have hlt : n.move_num < page := by omega
        have hps : ¬ n.child.isSome = true := fun hps => hcond ⟨hps, hlt⟩
        refine Or.inr ⟨?_, hlt⟩
        rcases hpp : n.child with _ | q
        · rfl
        · rw [hpp] at hps
          exact absurd rfl hps
  | succ fl ih =>
    intro s s2 i n hT hFS hcOK hpOK hc hn hle h
    rw [pageFwdLoop] at h
    simp only [hc, hn] at h
    split at h
    · rename_i hcond
      rcases hb : gogame_move_forward_update false s with _ | s1
      · rw [hb] at h
        cases h
      simp only [hb] at h
      rcases forward_false_spec hT hFS hb with
        ⟨i3, n3, hc3, hn3, hch3, hs1⟩ | ⟨i3, n3, j, cn, hc3, hn3, hch3, hcn3, hs1⟩
      · rw [hc] at hc3
        injection hc3 with hii
        subst hii
        rw [hn] at hn3
        injection hn3 with hnn
        subst hnn
        rw [hch3] at hcond
        exact absurd hcond.1 (by simp)
      · rw [hc] at hc3
        injection hc3 with hii
        subst hii
        rw [hn] at hn3
        injection hn3 with hnn
        subst hnn
        rcases childOK_elim (hcOK i (getNode_lt hn)) hn hch3 with ⟨cn2, hcn2, hcp2⟩
        rw [hcn3] at hcn2
        injection hcn2 with hcc
        subst hcc
        rcases parentOK_elim (hpOK j (getNode_lt hcn3)) hcn3 hcp2 with ⟨pn2, hpn2, hmv⟩
        rw [hn] at hpn2
        injection hpn2 with hpp2
        subst hpp2
        subst hs1
        exact ih (s := { s with curNode := some j, board := s.board.applyFrame (nodeCmds cn), nApply := s.nApply + 1 }) hT hFS hcOK hpOK rfl hcn3 (by omega) h
    · rename_i hcond
      cases h
      refine ⟨hT, hFS, i, n, hc, hn, ?_⟩
      by_cases hpm : page = n.move_num
      · exact Or.inl hpm
      · have hlt : n.move_num < page := by omega
        have hps : ¬ n.child.isSome = true := fun hps => hcond ⟨hps, hlt⟩
        refine Or.inr ⟨?_, hlt⟩
        rcases hpp : n.child with _ | q
        · rfl
        · rw [hpp] at hps
          exact absurd rfl hps

/-- C8: jump idempotence (P4).  After a completed gogame_move_to_page call,
repeating the call with the same target ply performs zero apply/undo
primitive calls (the nApply and nUndo counters are unchanged) and leaves
the cursor and the board projection unchanged. -/
theorem C8_jump_idempotent {s s1 : GogameState} {page : Int} (f1 : Nat) {r1 : Bool}
    (hWF : ∀ t, s.gameTree = some t → TreeWF t)
    (h1 : gogame_move_to_page page f1 s = some (s1, r1)) (f2 : Nat) :
    ∃ s2 r2, gogame_move_to_page page f2 s1 = some (s2, r2) ∧
      s2.curNode = s1.curNode ∧ s2.board = s1.board ∧
      s2.nApply = s1.nApply ∧ s2.nUndo = s1.nUndo := by
  unfold gogame_move_to_page at h1
  rcases hT : s.gameTree with _ | t
  · simp only [hT] at h1
    cases h1
    refine ⟨s, false, ?_, rfl, rfl, rfl, rfl⟩
    unfold gogame_move_to_page
    simp only [hT]
  rcases hFS : s.bShowFullScreenComment with _ | _
  · simp only [hT] at h1
    rw [hFS, if_neg Bool.false_ne_true] at h1
    rcases hc : s.curNode with _ | i
    · simp only [hc] at h1
      cases h1
      refine ⟨s, false, ?_, rfl, rfl, rfl, rfl⟩
      unfold gogame_move_to_page
      simp only [hT]
      rw [hFS, if_neg Bool.false_ne_true]
      simp only [hc]
    simp only [hc] at h1
    rcases hn : getNode t i with _ | n
    · simp only [hn] at h1
      cases h1
    simp only [hn] at h1
    split at h1
    · rename_i hpm
      cases h1
      refine ⟨s, false, ?_, rfl, rfl, rfl, rfl⟩
      unfold gogame_move_to_page
      simp only [hT]
      rw [hFS, if_neg Bool.false_ne_true]
      simp only [hc, hn]
      rw [if_pos hpm]
    · rename_i hpm
      by_cases hdir : page < n.move_num
      · rw [if_pos hdir] at h1
        rcases hl : pageBackLoop t page f1 s with _ | s3
        · simp only [hl] at h1
          cases h1
        simp only [hl] at h1
        rcases hup : updateCommentStr s3 with _ | s4
        · simp only [hup] at h1
          cases h1
        simp only [hup] at h1
        cases h1
        have hfr := updateCommentStr_frame hup
        rcases pageBackLoop_exit f1 hT hFS (fun i2 hi2 => (hWF t hT i2 hi2).2.1)
            hc hn (by omega) hl with ⟨hT3, hFS3, i2, n2, hc3, hn3, hca⟩
        have hT4 : s1.gameTree = some t := hfr.1.trans hT3
        have hFS4 : s1.bShowFullScreenComment = false := hfr.2.2.2.2.2.trans hFS3
        have hc4 : s1.curNode = some i2 := hfr.2.1.trans hc3
        rcases hca with hpm2 | ⟨hpar, hlt2⟩
        · refine ⟨s1, false, ?_, rfl, rfl, rfl, rfl⟩
          unfold gogame_move_to_page
          simp only [hT4]
          rw [hFS4, if_neg Bool.false_ne_true]
          simp only [hc4, hn3]
          rw [if_pos hpm2]
        · have hguard : ¬(n2.parent.isSome = true ∧ page < n2.move_num) := by
            intro hcontra
            rw [hpar] at hcontra
            simp at hcontra
          have hbl2 : pageBackLoop t page f2 s1 = some s1 :=
            pageBackLoop_guard_false hc4 hn3 hguard
          rcases updateCommentStr_exists hT4 hc4 hn3 with ⟨s5, hup5⟩
          have hfr5 := updateCommentStr_frame hup5
          refine ⟨s5, true, ?_, hfr5.2.1, hfr5.2.2.1, hfr5.2.2.2.1, hfr5.2.2.2.2.1⟩
          unfold gogame_move_to_page
          simp only [hT4]
          rw [hFS4, if_neg Bool.false_ne_true]
          simp only [hc4, hn3]
          rw [if_neg (by omega : ¬ page = n2.move_num)]
          rw [if_pos hlt2]
          simp only [hbl2, hup5]
      · rw [if_neg hdir] at h1
        rcases hl : pageFwdLoop t page f1 s with _ | s3
        · simp only [hl] at h1
          cases h1
        simp only [hl] at h1
        rcases hup : updateCommentStr s3 with _ | s4
        · simp only [hup] at h1
          cases h1
        simp only [hup] at h1
        cases h1
        have hfr := updateCommentStr_frame hup
        rcases pageFwdLoop_exit f1 hT hFS (fun i2 hi2 => (hWF t hT i2 hi2).1)
            (fun i2 hi2 => (hWF t hT i2 hi2).2.1)
            hc hn (by omega) hl with ⟨hT3, hFS3, i2, n2, hc3, hn3, hca⟩
        have hT4 : s1.gameTree = some t := hfr.1.trans hT3
        have hFS4 : s1.bShowFullScreenComment = false := hfr.2.2.2.2.2.trans hFS3
        have hc4 : s1.curNode = some i2 := hfr.2.1.trans hc3
        rcases hca with hpm2 | ⟨hch, hlt2⟩
        · refine ⟨s1, false, ?_, rfl, rfl, rfl, rfl⟩
          unfold gogame_move_to_page
          simp only [hT4]
          rw [hFS4, if_neg Bool.false_ne_true]
          simp only [hc4, hn3]
          rw [if_pos hpm2]
        · have hguard : ¬(n2.child.isSome = true ∧ n2.move_num < page) := by
            intro hcontra
            rw [hch] at hcontra
            simp at hcontra
          have hfl2 : pageFwdLoop t page f2 s1 = some s1 :=
            pageFwdLoop_guard_false hc4 hn3 hguard
          rcases updateCommentStr_exists hT4 hc4 hn3 with ⟨s5, hup5⟩
          have hfr5 := updateCommentStr_frame hup5
          refine ⟨s5, true, ?_, hfr5.2.1, hfr5.2.2.1, hfr5.2.2.2.1, hfr5.2.2.2.2.1⟩
          unfold gogame_move_to_page
          simp only [hT4]
          rw [hFS4, if_neg Bool.false_ne_true]
          simp only [hc4, hn3]
          rw [if_neg (by omega : ¬ page = n2.move_num)]
          rw [if_neg (by omega : ¬ page < n2.move_num)]
          simp only [hfl2, hup5]
  · simp only [hT] at h1
    rw [hFS, if_pos rfl] at h1
    cases h1
    refine ⟨s, false, ?_, rfl, rfl, rfl, rfl⟩
    unfold gogame_move_to_page
    simp only [hT]
    rw [hFS, if_pos rfl]

/-- Witness for C8: a completed jump to ply 0 from the root of treeA, then
a second jump to ply 0, which leaves the cursor, board and counters as they
were. -/
theorem C8_jump_idempotent_witness :
    ∃ s2 r2, gogame_move_to_page 0 7 stA0 = some (s2, r2) ∧
      s2.curNode = stA0.curNode ∧ s2.board = stA0.board ∧
      s2.nApply = stA0.nApply ∧ s2.nUndo = stA0.nUndo :=
  C8_jump_idempotent 5
    (fun t ht => by
      have h2 : some treeA = some t := ht
      cases h2
      decide)
    (show gogame_move_to_page 0 5 stA0 = some (stA0, false) by decide) 7
